import Mathlib

/-!
# Verification of the BLISS private-key core
  (src/libstrongswan/plugins/bliss/bliss_private_key.c)

Shallow embedding of the private-key operations of the BLISS signature
plugin: modular inversion, the Nk(S) norm evaluator, the sparse-vector
sampler, the key-generation driver and the signing driver.  External
collaborators (the FFT engine, the MGF1 bit spender, the discrete Gaussian
sampler, hashers and the RNG) are modelled as abstract deterministic
functions, exactly following the contracts stated for them; everything
that lives in `bliss_private_key.c` itself is translated statement by
statement.  Machine integers are `Nat`/`Int`; wherever the source can
overflow its C types on in-range inputs this is modelled explicitly: the
`int16_t` accumulators and arrays of `nks_norm` wrap through `wrap16`,
and its `uint32_t` result reduces modulo `2^32`.
-/

/-! ## Modular inverse (`invert`, bliss_private_key.c:641-667) -/

/-- The scan `i_max = 15; while ((q2 & (1 << i_max)) == 0) i_max--;`
    that finds the highest set bit of `q2`, as a downward recursion. -/
def find_imax (q2 : Nat) : Nat → Nat
  | 0 => 0
  | i + 1 => if q2 &&& (1 <<< (i + 1)) = 0 then find_imax q2 i else i + 1

/-- The square-and-multiply `for (i = 1; i <= i_max; i++)` loop of `invert`:
    `k` iterations starting from `x1 = (q2 & 1) ? x : 1`, `x2 = x`.
    Returns the pair `(x1, x2)` after iteration `i = k`. -/
def invert_loop (x q q2 : Nat) : Nat → Nat × Nat
  | 0 => (if q2.testBit 0 then x else 1, x)
  | k + 1 =>
    let s := invert_loop x q q2 k
    let x2 := s.2 * s.2 % q
    (if q2.testBit (k + 1) then s.1 * x2 % q else s.1, x2)

/-- `invert(x, q)` from the source: computes `x^(q-2) mod q` by
    square-and-multiply over the bits of `q - 2`, scanning from the least
    significant bit up to the highest set bit. -/
def invert (x q : Nat) : Nat :=
  (invert_loop x q (q - 2) (find_imax (q - 2) 15)).1

/-! ## The z2d adjustment step of the signing loop
    (bliss_private_key.c:354-366) -/

/-- One coefficient of the `z2d` derivation: `value = ud[i] - uz2d[i]`,
    then lift into `(-p/2, p/2]` by adding or subtracting `p`
    (`p2 = p / 2` is computed with truncating division, as in C). -/
def z2d_value (p : Nat) (ud uz2d : Int) : Int :=
  let p2 : Int := (p / 2 : Nat)
  let value := ud - uz2d
  if value ≤ -p2 then value + p
  else if value > p2 then value - p
  else value

/-! ## Parameter sets and keys

The BLISS parameter set is constant data supplied by an external registry
(`bliss_param_set.c`); only the fields read by `bliss_private_key.c` are
modelled. -/

/-- The fields of `bliss_param_set_t` used by the private-key core. -/
structure BlissParamSet where
  n : Nat
  q : Nat
  p : Nat
  kappa : Nat
  n_bits : Nat
  non_zero1 : Nat
  non_zero2 : Nat
  nks_max : Nat
  q2_inv : Nat
  M : Int
  strength : Nat
  deriving DecidableEq

/-- `private_bliss_private_key_t`: the parameter set reference, the secret
    polynomials `s1` (f) and `s2` (2g+1), and the public polynomial `a`. -/
structure BlissKey where
  set : BlissParamSet
  s1 : List Int
  s2 : List Int
  a : List Nat
  deriving DecidableEq

/-- `SECRET_KEY_TRIALS_MAX` (bliss_private_key.c:34). -/
def SECRET_KEY_TRIALS_MAX : Nat := 50

/-! ## Sorting

`nks_norm` sorts scratch arrays with `qsort` and an ascending `int16_t`
comparator (bliss_private_key.c:586-602).  The comparator subtracts in
`int16_t`, so it realises the value order exactly when all pairwise
differences of the array fit in `int16_t`; `sortInt` is the ascending
value sort (a structural merge sort, so the kernel can evaluate it).
Where a theorem below depends on the sort order, its hypotheses bound the
array so that the comparator is consistent; the counterexample for the
Nk(S) claim uses `kappa = n`, where both sorted arrays are only ever
summed in full, so the result does not depend on the order `qsort`
produces. -/

/-- Merge two ascending lists (fuel-bounded structural recursion; a fuel of
    `a.length + b.length` always suffices). -/
def merge : Nat → List Int → List Int → List Int
  | 0, a, b => a ++ b
  | _fuel + 1, [], b => b
  | _fuel + 1, a :: as, [] => a :: as
  | fuel + 1, a :: as, b :: bs =>
    if a ≤ b then a :: merge fuel as (b :: bs) else b :: merge fuel (a :: as) bs

/-- Fuel-bounded merge sort (a fuel of `l.length` always suffices, since
    the halving depth is at most `log2`). -/
def msort : Nat → List Int → List Int
  | 0, l => l
  | _fuel + 1, [] => []
  | _fuel + 1, [a] => [a]
  | fuel + 1, l => merge l.length (msort fuel (l.take (l.length / 2)))
      (msort fuel (l.drop (l.length / 2)))

/-- Ascending sort of a list of integers. -/
def sortInt (l : List Int) : List Int := msort l.length l

/-! ## Negative-wrapped products and the Nk(S) norm
    (bliss_private_key.c:550-636)

The arrays `t`, `t_wrapped` and `max_kappa` of `nks_norm`, and the
accumulator of `wrapped_product`, are `int16_t`: every store wraps the
value into `[-2^15, 2^15)` (`wrap16`).  The `nks` accumulator is
`uint32_t`: it adds the sign-extended `int16_t` entries modulo `2^32`
(`add_u32`). -/

/-- Conversion of an integer to `int16_t` (two's complement). -/
def wrap16 (x : Int) : Int := (x + 32768) % 65536 - 32768

/-- One `int16_t` accumulation step `acc += b`. -/
def add16 (a b : Int) : Int := wrap16 (a + b)

/-- One `uint32_t` accumulation step `acc += b` with `b` an `int16_t`
    value (sign extension, then reduction modulo `2^32`). -/
def add_u32 (a : Nat) (b : Int) : Nat := (((a : Int) + b) % 4294967296).toNat

/-- `wrapped_product(x, y, n, shift)` with its `int16_t` accumulator: the
    running products `product += x[i]·y[i+shift]` (for `i < n-shift`) and
    `product -= x[i]·y[i+shift-n]` (for `n-shift ≤ i < n`, written with
    `j = i-(n-shift)`), each step wrapped into `int16_t`. -/
def wrapped_product (x y : List Int) (n shift : Nat) : Int :=
  (((List.range (n - shift)).map (fun i => x.getD i 0 * y.getD (i + shift) 0)) ++
    ((List.range shift).map (fun j => -(x.getD (n - shift + j) 0 * y.getD j 0)))).foldl
    add16 0

/-- `wrap(x, n, shift)`: the negative-wrapped rotation of `x` by `shift`:
    `x_wrapped[i+shift] = x[i]` for `i < n-shift` and
    `x_wrapped[i+shift-n] = -x[i]` for `i ≥ n-shift`.  Position `j < shift`
    holds `-x[n-shift+j]` (negated in `int`, stored in `int16_t`, hence
    `wrap16`) and position `j ≥ shift` holds `x[j-shift]`. -/
def wrap (x : List Int) (n shift : Nat) : List Int :=
  ((x.drop (n - shift)).map (fun a => wrap16 (-a))) ++ x.take (n - shift)

/-- The `for (j = 1; j <= kappa; j++) max_kappa[i] += sorted[n - j]`
    accumulation of `nks_norm`: the `int16_t` sum of the last `kappa`
    entries of the ascending sort.  (The source adds them from the top
    down; `int16_t` accumulation is associative-commutative modulo `2^16`,
    so the summation order does not affect the stored result, see
    `foldl_add16_wrap`.) -/
def top_sum (kappa : Nat) (l : List Int) : Int :=
  ((sortInt l).drop (l.length - kappa)).foldl add16 0

/-- `nks_norm(s1, s2, n, kappa)` (bliss_private_key.c:607-636), with the
    `int16_t` stores of `t` and `max_kappa` and the `uint32_t` result
    accumulation modelled explicitly. -/
def nks_norm (s1 s2 : List Int) (n kappa : Nat) : Nat :=
  let t := (List.range n).map
    (fun i => wrap16 (wrapped_product s1 s1 n i + wrapped_product s2 s2 n i))
  let max_kappa := (List.range n).map (fun i => top_sum kappa (wrap t n i))
  ((sortInt max_kappa).drop (max_kappa.length - kappa)).foldl add_u32 0

/-! The same three computations with exact (unbounded) integer arithmetic.
    These are proof intermediates: under the no-overflow bounds established
    below, the machine computation above coincides with them. -/

/-- `wrapped_product` with an exact accumulator. -/
def wrapped_product_exact (x y : List Int) (n shift : Nat) : Int :=
  ((List.range (n - shift)).map (fun i => x.getD i 0 * y.getD (i + shift) 0)).sum
    - ((List.range shift).map (fun j => x.getD (n - shift + j) 0 * y.getD j 0)).sum

/-- `wrap` with exact negation. -/
def wrap_exact (x : List Int) (n shift : Nat) : List Int :=
  ((x.drop (n - shift)).map (fun a => -a)) ++ x.take (n - shift)

/-- `top_sum` with an exact accumulator. -/
def top_sum_exact (kappa : Nat) (l : List Int) : Int :=
  ((sortInt l).drop (l.length - kappa)).sum

/-- The whole of `nks_norm` with exact arithmetic throughout. -/
def nks_norm_exact (s1 s2 : List Int) (n kappa : Nat) : Int :=
  let t := (List.range n).map
    (fun i => wrapped_product_exact s1 s1 n i + wrapped_product_exact s2 s2 n i)
  let max_kappa := (List.range n).map (fun i => top_sum_exact kappa (wrap_exact t n i))
  top_sum_exact kappa max_kappa

/-! The claim's wording of the same computation, written independently:
    `t[i] = <s1, rho^i s1> + <s2, rho^i s2>`, rotate/sort/take the top kappa
    twice.  This is the yardstick `nks_norm` is compared against. -/

/-- The spec's negative-wrapped rotation `rho^s`, defined positionally. -/
def rho_rot (s : Nat) (x : List Int) : List Int :=
  (List.range x.length).map
    (fun j => if j < s then -(x.getD (x.length - s + j) 0) else x.getD (j - s) 0)

/-- The spec's inner product `<x, y>` of two coefficient vectors. -/
def dot_spec (x y : List Int) : Int :=
  ((List.range x.length).map (fun j => x.getD j 0 * y.getD j 0)).sum

/-- The spec's "sort ascending, sum the top kappa entries". -/
def top_sum_spec (kappa : Nat) (l : List Int) : Int :=
  ((sortInt l).reverse.take kappa).sum

/-- The Nk(S) norm exactly as the claim words it. -/
def nks_spec (s1 s2 : List Int) (n kappa : Nat) : Int :=
  let t := (List.range n).map
    (fun i => dot_spec s1 (rho_rot i s1) + dot_spec s2 (rho_rot i s2))
  let max_kappa := (List.range n).map (fun i => top_sum_spec kappa (rho_rot i t))
  top_sum_spec kappa max_kappa

/-- The all-ones ternary vector of length 182: the smallest all-ones
    instance on which the `int16_t` `max_kappa` stores of `nks_norm` wrap
    (with `kappa = n`, rotation `n - m` sums to `4m(n+1-m) - 2n`, which
    tops out at `n^2 + 1 = 33125 > 32767`). -/
def allOnes182 : List Int := List.replicate 182 1

/-! ## The MGF1 bit spender and the sparse-vector sampler
    (bliss_private_key.c:672-735)

The MGF1 bit spender is an external collaborator; by its contract it hands
out consecutive bits of a pseudo-random stream and fails exactly when it
cannot supply the requested bits.  It is modelled as a finite list of
booleans consumed from the front. -/

/-- The value of a big-endian bit string. -/
def bits_val (l : List Bool) : Nat :=
  l.foldl (fun a b => 2 * a + (if b then 1 else 0)) 0

/-- `bitspender->get_bits(bits, &value)`: consume `k` bits from the stream,
    failing when fewer than `k` bits remain. -/
def get_bits (k : Nat) (s : List Bool) : Option (Nat × List Bool) :=
  if k ≤ s.length then some (bits_val (s.take k), s.drop k) else none

/-- One `while (non_zero)` rejection loop of `create_vector_from_seed`:
    draw an `n_bits`-bit index; if `v[index] ≠ 0` retry, else draw a sign
    bit and set `v[index] = ±val`.  The fuel argument only bounds the
    recursion; each iteration consumes at least one bit, so a fuel of
    `stream length + 1` never runs out (proved below). -/
def fill_loop (nbits : Nat) (val : Int) :
    Nat → List Int → List Bool → Nat → Option (List Int × List Bool)
  | 0, _v, _s, _nz => none
  | fuel + 1, v, s, non_zero =>
    match non_zero with
    | 0 => some (v, s)
    | nz + 1 =>
      match get_bits nbits s with
      | none => none
      | some (index, s1) =>
        if v.getD index 0 ≠ 0 then fill_loop nbits val fuel v s1 (nz + 1)
        else
          match get_bits 1 s1 with
          | none => none
          | some (sgn, s2) =>
            fill_loop nbits val fuel (v.set index (if sgn = 1 then val else -val)) s2 nz

/-- `create_vector_from_seed`: a zero vector of length `n` filled with
    exactly `non_zero1` entries `±1` and then `non_zero2` entries `±2`,
    positions drawn by rejection from the bit stream. -/
def create_vector_from_seed (P : BlissParamSet) (stream : List Bool) :
    Option (List Int) :=
  match fill_loop P.n_bits 1 (stream.length + 1) (List.replicate P.n 0)
      stream P.non_zero1 with
  | none => none
  | some (v1, s1) =>
    match fill_loop P.n_bits 2 (s1.length + 1) v1 s1 P.non_zero2 with
    | none => none
    | some (v2, _) => some v2

/-- The number of entries of `v` equal to `a` or `-a` (used to state the
    sparsity profile of sampled vectors). -/
def countPM (v : List Int) (a : Int) : Nat :=
  v.countP (fun x => x == a || x == -a)

/-! ## Key generation (bliss_private_key.c:740-942) -/

/-- `g[i] *= 2` for all `i`, then `g[0] += 1` (bliss_private_key.c:793-798). -/
def two_g_plus_1 (g : List Int) : List Int :=
  let g2 := g.map (fun x => 2 * x)
  g2.set 0 (g2.getD 0 0 + 1)

/-- The signed-to-unsigned conversion before the FFT for `s1`:
    `S1[i] = s1[i] < 0 ? s1[i] + q : s1[i]` (bliss_private_key.c:890). -/
def lift1 (s : List Int) (q : Nat) : List Nat :=
  s.map (fun x : Int => if x < 0 then (x + (q : Int)).toNat else x.toNat)

/-- The signed-to-unsigned conversion before the FFT for `s2`, with the
    sign flip: `S2[i] = s2[i] > 0 ? q - s2[i] : -s2[i]`
    (bliss_private_key.c:891). -/
def lift2 (s : List Int) (q : Nat) : List Nat :=
  s.map (fun x => if 0 < x then q - x.toNat else (-x).toNat)

/-- The invertibility test and public-key derivation in the FFT domain
    (bliss_private_key.c:897-911): fail if some `S1[i]` is zero, else
    `A[i] = (S2[i] * invert(S1[i], q)) mod q`. -/
def derive_pub (q : Nat) (S1f S2f : List Nat) : Option (List Nat) :=
  if 0 ∈ S1f then none
  else some (List.zipWith (fun a b => b * invert a q % q) S1f S2f)

/-- `create_secret` (bliss_private_key.c:740-815): up to
    `SECRET_KEY_TRIALS_MAX` total trials, each drawing the MGF1 bit streams
    for `f` and `g` (RNG or bit-spender failure aborts), building
    `s2 = 2g+1` and accepting when `Nk(S) < nks_max`.  `streams i` is the
    pair of MGF1 streams of trial `i` (or `none` for an RNG failure); the
    fuel is `SECRET_KEY_TRIALS_MAX - trials`, mirroring the
    `while (*trials < SECRET_KEY_TRIALS_MAX)` guard.  Returns the result
    together with the final trial counter. -/
def create_secret_go (P : BlissParamSet)
    (streams : Nat → Option (List Bool × List Bool)) :
    Nat → Nat → Option (List Int × List Int) × Nat
  | trials, 0 => (none, trials)
  | trials, fuel + 1 =>
    match streams trials with
    | none => (none, trials + 1)
    | some (b1, b2) =>
      match create_vector_from_seed P b1 with
      | none => (none, trials + 1)
      | some f =>
        match create_vector_from_seed P b2 with
        | none => (none, trials + 1)
        | some g =>
          if nks_norm f (two_g_plus_1 g) P.n P.kappa < P.nks_max then
            (some (f, two_g_plus_1 g), trials + 1)
          else create_secret_go P streams (trials + 1) fuel

/-- The `do { create_secret(); lift; FFT; invert } while (!success &&
    trials < SECRET_KEY_TRIALS_MAX)` loop of `bliss_private_key_gen`
    (bliss_private_key.c:880-913).  The FFT engine is abstract
    (`fft`/`fftInv`).  On success returns the constructed key together with
    the FFT-domain public polynomial `A`; the second component is the final
    trial counter. -/
def keygen_go (P : BlissParamSet) (fft fftInv : List Nat → List Nat)
    (streams : Nat → Option (List Bool × List Bool)) :
    Nat → Nat → Option (BlissKey × List Nat) × Nat
  | trials, 0 => (none, trials)
  | trials, ofuel + 1 =>
    match create_secret_go P streams trials (SECRET_KEY_TRIALS_MAX - trials) with
    | (none, t) => (none, t)
    | (some (f, s2), t) =>
      match derive_pub P.q (fft (lift1 f P.q)) (fft (lift2 s2 P.q)) with
      | some A => (some ({ set := P, s1 := f, s2 := s2, a := fftInv A }, A), t)
      | none =>
        if t < SECRET_KEY_TRIALS_MAX then keygen_go P fft fftInv streams t ofuel
        else (none, t)

/-- `bliss_private_key_gen` from the accepted parameter set onward. -/
def bliss_private_key_gen (P : BlissParamSet) (fft fftInv : List Nat → List Nat)
    (streams : Nat → Option (List Bool × List Bool)) :
    Option (BlissKey × List Nat) × Nat :=
  keygen_go P fft fftInv streams 0 SECRET_KEY_TRIALS_MAX

/-- Whether trial `i` would yield an acceptable secret: its streams are
    available, both sparse vectors can be drawn, `Nk(S) < nks_max` and the
    NTT image of the lifted `s1` is zero free. -/
def good_trial (P : BlissParamSet) (fft : List Nat → List Nat)
    (streams : Nat → Option (List Bool × List Bool)) (i : Nat) : Bool :=
  match streams i with
  | none => false
  | some (b1, b2) =>
    match create_vector_from_seed P b1, create_vector_from_seed P b2 with
    | some f, some g =>
      decide (nks_norm f (two_g_plus_1 g) P.n P.kappa < P.nks_max)
        && !(decide (0 ∈ fft (lift1 f P.q)))
    | _, _ => false

/-! ## Signing (bliss_private_key.c:80-411)

The hasher, RNG, discrete Gaussian sampler, FFT engine and the
`bliss_utils` helpers are external collaborators; they are modelled as the
abstract deterministic operations below (the sampler is stateful, with
state type `S`).  The loop body of `sign_bliss_with_sha512` is translated
statement by statement. -/

/-- The abstract external collaborators used by `sign_bliss_with_sha512`,
    all deterministic functions as their contracts specify. -/
structure SignExt (S : Type) where
  /-- SHA-512 of the message data (`hasher->get_hash`). -/
  hashData : List Nat → Option (List Nat)
  /-- `bliss_sampler_create(alg, seed, set)`. -/
  samplerCreate : List Nat → Option S
  /-- `sampler->gaussian`. -/
  gaussian : S → Option (Int × S)
  /-- `sampler->bernoulli_exp`. -/
  bernoulliExp : Int → S → Option (Bool × S)
  /-- `sampler->bernoulli_cosh`. -/
  bernoulliCosh : Int → S → Option (Bool × S)
  /-- `sampler->sign`. -/
  signBit : S → Option (Bool × S)
  /-- Forward NTT (`fft->transform(.., FALSE)`), on coefficients in `[0,q)`. -/
  fft : List Nat → List Nat
  /-- Inverse NTT (`fft->transform(.., TRUE)`). -/
  fftInv : List Nat → List Nat
  /-- `bliss_utils_round_and_drop(set, u, ud)`. -/
  roundAndDrop : List Int → List Int
  /-- `bliss_utils_generate_c(hasher, data_hash, ud, n, kappa, c_indices)`. -/
  generateC : List Nat → List Int → Option (List Nat)
  /-- `bliss_utils_check_norms(set, z1, z2d)`. -/
  checkNorms : List Int → List Int → Bool
  /-- `sig->get_encoding()` for the accepted `(z1, z2d, c_indices)`. -/
  encode : List Int → List Int → List Nat → List Nat

/-- Modelled from the spec: `bliss_utils_scalar_product(x, y, n)` (external
    utility, bliss_utils.c), the scalar product of two length-`n` vectors. -/
def scalar_product (x y : List Int) : Int :=
  (List.zipWith (fun a b => a * b) x y).sum

/-- `multiply_by_c(s, n, c_indices, kappa, product)`
    (bliss_private_key.c:80-102): negative-wrapped product of `s` with the
    sparse binary challenge whose support is `c_indices`.  In the
    wrap-around branch (`i - index < 0`) the source reads
    `s[i - index + n]`; over `Nat` that index is written `i + n - index`,
    which agrees with the C `int` arithmetic for every in-bounds access
    (`index ≤ n`). -/
def multiply_by_c (s : List Int) (n : Nat) (c_indices : List Nat) : List Int :=
  (List.range n).map (fun i =>
    c_indices.foldl (fun acc index =>
      if i < index then acc - s.getD (i + n - index) 0
      else acc + s.getD (i - index) 0) 0)

/-- The Gaussian-sampling loop at the top of each signing iteration:
    `y1[i] = gaussian(); y2[i] = gaussian()` for `i = 0..n-1`,
    threading the sampler state. -/
def gaussians {S : Type} (E : SignExt S) : Nat → S → Option (List Int × List Int × S)
  | 0, st => some ([], [], st)
  | n + 1, st =>
    match E.gaussian st with
    | none => none
    | some (y1i, st1) =>
      match E.gaussian st1 with
      | none => none
      | some (y2i, st2) =>
        match gaussians E n st2 with
        | none => none
        | some (ys1, ys2, st') => some (y1i :: ys1, y2i :: ys2, st')

/-- Outcome of one iteration of the signing `while (true)` loop. -/
inductive IterResult where
  | fail : IterResult
  | reject : IterResult
  | accept : List Int → List Int → List Nat → IterResult

/-- One iteration of the rejection-sampling loop of
    `sign_bliss_with_sha512` (bliss_private_key.c:189-374), a deterministic
    function of the key material, the message hash and the sampler seed
    drawn at the top of the iteration. -/
def sign_iteration {S : Type} (E : SignExt S) (P : BlissParamSet)
    (s1 s2 : List Int) (A : List Nat) (dataHash : List Nat)
    (seed : List Nat) : IterResult :=
  match E.samplerCreate seed with
  | none => .fail
  | some st0 =>
    match gaussians E P.n st0 with
    | none => .fail
    | some (y1, y2, st1) =>
      let ay0 : List Nat := y1.map (fun y => if y < 0 then ((P.q : Int) + y).toNat else y.toNat)
      let ayf := E.fft ay0
      let ay1 := List.zipWith (fun a b => a * b % P.q) A ayf
      let ay := E.fftInv ay1
      let q2 : Int := 2 * P.q
      let u := List.zipWith (fun (ayi : Nat) (y2i : Int) =>
        let ui : Int := 2 * P.q2_inv * (ayi : Int) + y2i
        (if ui < 0 then q2 + ui else ui) % q2) ay y2
      let ud := E.roundAndDrop u
      match E.generateC dataHash ud with
      | none => .fail
      | some c_indices =>
        let s1c := multiply_by_c s1 P.n c_indices
        let s2c := multiply_by_c s2 P.n c_indices
        let norm := scalar_product s1c s1c + scalar_product s2c s2c
        match E.bernoulliExp (P.M - norm) st1 with
        | none => .fail
        | some (accepted, st2) =>
          if !accepted then .reject
          else
            match E.signBit st2 with
            | none => .fail
            | some (positive, st3) =>
              let z1 := if positive then List.zipWith (fun a b => a + b) y1 s1c
                        else List.zipWith (fun a b => a - b) y1 s1c
              let z2 := if positive then List.zipWith (fun a b => a + b) y2 s2c
                        else List.zipWith (fun a b => a - b) y2 s2c
              let scalar := scalar_product z1 s1c + scalar_product z2 s2c
              match E.bernoulliCosh scalar st3 with
              | none => .fail
              | some (accepted2, _) =>
                if !accepted2 then .reject
                else
                  let u' := List.zipWith (fun ui z2i =>
                    let v := ui - z2i
                    if v < 0 then v + q2 else if v ≥ q2 then v - q2 else v) u z2
                  let uz2d := E.roundAndDrop u'
                  let z2d := List.zipWith (fun udi uz2di => z2d_value P.p udi uz2di) ud uz2d
                  if E.checkNorms z1 z2d then .accept z1 z2d c_indices else .reject

/-- The `while (true)` rejection loop: each pass draws a fresh seed from
    the RNG (`rng k` is the result of the `k`-th `rng->get_bytes` call) and
    runs one iteration.  Returns the written signature encoding (if any),
    the key (read-only throughout) and the number of RNG calls made.  The
    fuel bounds the number of iterations considered; the source loop is
    unbounded. -/
def sign_loop {S : Type} (E : SignExt S) (key : BlissKey) (dataHash : List Nat)
    (A : List Nat) (rng : Nat → Option (List Nat)) :
    Nat → Nat → Option (List Nat) × BlissKey × Nat
  | 0, k => (none, key, k)
  | fuel + 1, k =>
    match rng k with
    | none => (none, key, k + 1)
    | some seed =>
      match sign_iteration E key.set key.s1 key.s2 A dataHash seed with
      | .fail => (none, key, k + 1)
      | .accept z1 z2d c => (some (E.encode z1 z2d c), key, k + 1)
      | .reject => sign_loop E key dataHash A rng fuel (k + 1)

/-- `sign_bliss_with_sha512` (bliss_private_key.c:107-396): hash the data,
    compute `A = FFT(a)` once, then run the rejection loop. -/
def sign_bliss_with_sha512 {S : Type} (E : SignExt S) (key : BlissKey)
    (data : List Nat) (rng : Nat → Option (List Nat)) (fuel : Nat) :
    Option (List Nat) × BlissKey × Nat :=
  match E.hashData data with
  | none => (none, key, 0)
  | some dataHash => sign_loop E key dataHash (E.fft key.a) rng fuel 0

/-- `signature_scheme_t` values relevant to the dispatcher. -/
inductive SigScheme where
  | unknown
  | rsaEmsaPkcs1Sha256
  | ecdsaWithSha384
  | blissWithSha256
  | blissWithSha384
  | blissWithSha512
  deriving DecidableEq

/-- The `sign` method (bliss_private_key.c:398-411): dispatch on the
    scheme.  The pair component records the value written to `*signature`
    (`none` when the method never writes it; `sign_bliss_with_sha512` first
    writes the empty chunk and overwrites it with the encoding on success);
    the `BlissKey` component is the state of the key after the call. -/
def sign (E : SignExt S) (scheme : SigScheme) (key : BlissKey)
    (data : List Nat) (rng : Nat → Option (List Nat)) (fuel : Nat) :
    (Bool × Option (List Nat)) × BlissKey :=
  match scheme with
  | .blissWithSha512 =>
    match sign_bliss_with_sha512 E key data rng fuel with
    | (res, key', _) => ((res.isSome, some (res.getD [])), key')
  | _ => ((false, none), key)

/-- The `decrypt` method (bliss_private_key.c:413-420): logs and returns
    `FALSE` without writing `*plain`, for every encryption scheme and
    ciphertext.  The scheme is the raw `encryption_scheme_t` value. -/
def decrypt (_key : BlissKey) (_scheme : Nat) (_crypto : List Nat) :
    Bool × Option (List Nat) :=
  (false, none)

/-! ## Concrete instances used by the witnesses -/

/-- A tiny deterministic instantiation of the external collaborators. -/
def trivExt : SignExt Unit where
  hashData := fun _ => some []
  samplerCreate := fun _ => some ()
  gaussian := fun _ => some (1, ())
  bernoulliExp := fun _ _ => some (true, ())
  bernoulliCosh := fun _ _ => some (true, ())
  signBit := fun _ => some (true, ())
  fft := id
  fftInv := id
  roundAndDrop := id
  generateC := fun _ _ => some [0]
  checkNorms := fun _ _ => true
  encode := fun _ _ _ => [1]

/-- A degenerate parameter set for concrete evaluation. -/
def demoParams : BlissParamSet where
  n := 1
  q := 5
  p := 2
  kappa := 1
  n_bits := 1
  non_zero1 := 1
  non_zero2 := 0
  nks_max := 100
  q2_inv := 3
  M := 100
  strength := 128

/-- A concrete key over `demoParams`. -/
def demoKey : BlissKey where
  set := demoParams
  s1 := [1]
  s2 := [1]
  a := [1]

/-- A parameter set with `n = 2 = 2^n_bits`, one `±1` and no `±2` per
    sampled vector, over `q = 13`. -/
def demoParamsN2 : BlissParamSet where
  n := 2
  q := 13
  p := 4
  kappa := 1
  n_bits := 1
  non_zero1 := 1
  non_zero2 := 0
  nks_max := 1000
  q2_inv := 7
  M := 100
  strength := 128

/-- A parameter set with `n = 2 = 2^n_bits` whose sampled vectors have two
    `±1` entries (so the lifted `s1` can be zero free). -/
def demoParamsKG : BlissParamSet where
  n := 2
  q := 13
  p := 4
  kappa := 1
  n_bits := 1
  non_zero1 := 2
  non_zero2 := 0
  nks_max := 1000
  q2_inv := 7
  M := 100
  strength := 128

/-- Per-trial MGF1 streams: both vectors are drawn from `[0,1,1,1]`,
    yielding `f = g = [1, 1]`. -/
def demoStreams : Nat → Option (List Bool × List Bool) :=
  fun _ => some ([false, true, true, true], [false, true, true, true])

/-- The key `bliss_private_key_gen demoParamsKG id id demoStreams`
    produces. -/
def demoKeyKG : BlissKey where
  set := demoParamsKG
  s1 := [1, 1]
  s2 := [3, 2]
  a := [10, 11]

/-- An RNG stream that always delivers the seed `[0]`. -/
def demoRng : Nat → Option (List Nat) := fun _ => some [0]

/-- An RNG stream that agrees with `demoRng` on its first value only. -/
def demoRng' : Nat → Option (List Nat) := fun k => if k = 0 then some [0] else none

/-! # Theorems

## Correctness of `invert` -/

/-- The bit scan stops at a position whose successor power of two bounds
    `q2`. -/
lemma find_imax_bound (q2 : Nat) :
    ∀ i, q2 < 2 ^ (i + 1) → q2 < 2 ^ (find_imax q2 i + 1) := by
  intro i
  induction i with
  | zero => intro h; simpa [find_imax] using h
  | succ i ih =>
    intro h
    unfold find_imax
    split
    · rename_i hz
      apply ih
      rw [Nat.one_shiftLeft, Nat.and_two_pow] at hz
      have hb : q2.testBit (i + 1) = false := by
        cases hb' : q2.testBit (i + 1) with
        | false => rfl
        | true => rw [hb'] at hz; simp at hz
      rw [Nat.testBit_to_div_mod] at hb
      have hb2 : q2 / 2 ^ (i + 1) % 2 ≠ 1 := by simpa using hb
      have hd : q2 / 2 ^ (i + 1) < 2 := by
        apply Nat.div_lt_of_lt_mul
        calc q2 < 2 ^ (i + 1 + 1) := h
        _ = 2 ^ (i + 1) * 2 := by ring
      have hb3 : q2 / 2 ^ (i + 1) ≠ 1 := by
        rw [Nat.mod_eq_of_lt hd] at hb2
        exact hb2
      have hz' : q2 / 2 ^ (i + 1) = 0 := by
        obtain ⟨d, hd_eq⟩ : ∃ d, q2 / 2 ^ (i + 1) = d := ⟨_, rfl⟩
        rw [hd_eq] at hd hb3 ⊢
        omega
      have hdm := Nat.div_add_mod q2 (2 ^ (i + 1))
      have hm : q2 % 2 ^ (i + 1) < 2 ^ (i + 1) :=
        Nat.mod_lt _ (Nat.pos_pow_of_pos _ (by norm_num))
      rw [hz', Nat.mul_zero, Nat.zero_add] at hdm
      rw [← hdm]
      exact hm
    · exact h

/-- Loop invariant of the square-and-multiply loop: after iteration `k`,
    `x1 ≡ x^(q2 mod 2^(k+1))` and `x2 ≡ x^(2^k)` modulo `q`, with `x1 < q`. -/
lemma invert_loop_spec (x q q2 : Nat) (hq : 1 < q) (hx : x < q) :
    ∀ k, (invert_loop x q q2 k).1 < q ∧
      (invert_loop x q q2 k).1 % q = x ^ (q2 % 2 ^ (k + 1)) % q ∧
      (invert_loop x q q2 k).2 % q = x ^ 2 ^ k % q := by
  have hq0 : 0 < q := by omega
  intro k
  induction k with
  | zero =>
    simp only [invert_loop]
    by_cases hb : q2.testBit 0
    · have h2 : q2 % 2 ^ 1 = 1 := by
        rw [Nat.testBit_to_div_mod] at hb
        have hb2 : q2 / 2 ^ 0 % 2 = 1 := by simpa using hb
        simp only [pow_zero, Nat.div_one] at hb2
        simpa using hb2
      simp only [hb, if_true]
      exact ⟨hx, by rw [h2, pow_one], by rw [pow_zero, pow_one]⟩
    · have h2 : q2 % 2 ^ 1 = 0 := by
        rw [Nat.testBit_to_div_mod] at hb
        have hb2 : q2 / 2 ^ 0 % 2 ≠ 1 := by simpa using hb
        simp only [pow_zero, Nat.div_one] at hb2
        have : q2 % 2 < 2 := Nat.mod_lt _ (by norm_num)
        simpa using by omega
      rw [Bool.not_eq_true] at hb
      simp only [hb, Bool.false_eq_true, if_false]
      refine ⟨hq, ?_, by rw [pow_zero, pow_one]⟩
      rw [h2, pow_zero]
  | succ k ih =>
    obtain ⟨h1, h2, h3⟩ := ih
    simp only [invert_loop]
    have hpow : (2 : Nat) ^ (k + 1) = 2 ^ k + 2 ^ k := by ring
    have hw : (invert_loop x q q2 k).2 * (invert_loop x q q2 k).2 % q
        = x ^ 2 ^ (k + 1) % q := by
      calc (invert_loop x q q2 k).2 * (invert_loop x q q2 k).2 % q
          = ((invert_loop x q q2 k).2 % q) * ((invert_loop x q q2 k).2 % q) % q :=
            Nat.mul_mod _ _ _
        _ = (x ^ 2 ^ k % q) * (x ^ 2 ^ k % q) % q := by rw [h3]
        _ = x ^ 2 ^ k * x ^ 2 ^ k % q := (Nat.mul_mod _ _ _).symm
        _ = x ^ (2 ^ k + 2 ^ k) % q := by rw [← pow_add]
        _ = x ^ 2 ^ (k + 1) % q := by rw [hpow]
    have hw2 : (invert_loop x q q2 k).2 * (invert_loop x q q2 k).2 % q % q
        = x ^ 2 ^ (k + 1) % q := by
      rw [Nat.mod_mod_of_dvd _ dvd_rfl]; exact hw
    have hsplit : q2 % 2 ^ (k + 2) = q2 % 2 ^ (k + 1) + 2 ^ (k + 1) * (q2 / 2 ^ (k + 1) % 2) := by
      have h22 : (2 : Nat) ^ (k + 2) = 2 ^ (k + 1) * 2 := by ring
      rw [h22, Nat.mod_mul]
    by_cases hb : q2.testBit (k + 1)
    · have hd : q2 / 2 ^ (k + 1) % 2 = 1 := by
        rw [Nat.testBit_to_div_mod] at hb
        simpa using hb
      rw [hd, Nat.mul_one] at hsplit
      simp only [hb, if_true]
      refine ⟨Nat.mod_lt _ (by omega), ?_, hw2⟩
      rw [Nat.mod_mod_of_dvd _ dvd_rfl]
      calc (invert_loop x q q2 k).1 * ((invert_loop x q q2 k).2 * (invert_loop x q q2 k).2 % q) % q
          = ((invert_loop x q q2 k).1 % q) *
              ((invert_loop x q q2 k).2 * (invert_loop x q q2 k).2 % q % q) % q :=
            Nat.mul_mod _ _ _
        _ = (x ^ (q2 % 2 ^ (k + 1)) % q) * (x ^ 2 ^ (k + 1) % q) % q := by
            rw [h2, hw2]
        _ = x ^ (q2 % 2 ^ (k + 1)) * x ^ 2 ^ (k + 1) % q := (Nat.mul_mod _ _ _).symm
        _ = x ^ (q2 % 2 ^ (k + 1) + 2 ^ (k + 1)) % q := by rw [← pow_add]
        _ = x ^ (q2 % 2 ^ (k + 2)) % q := by rw [hsplit]
    · have hd : q2 / 2 ^ (k + 1) % 2 = 0 := by
        rw [Nat.testBit_to_div_mod] at hb
        have hb2 : q2 / 2 ^ (k + 1) % 2 ≠ 1 := by simpa using hb
        omega
      rw [hd, Nat.mul_zero, Nat.add_zero] at hsplit
      simp only [hb, if_false]
      refine ⟨h1, ?_, hw2⟩
      rw [hsplit]
      exact h2

/-- `invert` computes `x^(q-2) mod q`. -/
lemma invert_eq_pow (x q : Nat) (hq : 1 < q) (hq16 : q < 65536) (hx : x < q) :
    invert x q = x ^ (q - 2) % q := by
  obtain ⟨h1, h2, _⟩ := invert_loop_spec x q (q - 2) hq hx (find_imax (q - 2) 15)
  have hb : q - 2 < 2 ^ (find_imax (q - 2) 15 + 1) := by
    apply find_imax_bound
    have : (2 : Nat) ^ (15 + 1) = 65536 := by norm_num
    omega
  unfold invert
  rw [Nat.mod_eq_of_lt hb] at h2
  rw [← Nat.mod_eq_of_lt h1]
  exact h2

/-- Multiplying by the computed inverse yields 1 modulo a prime `q`. -/
lemma invert_mul_self (x q : Nat) (hp : q.Prime) (hq16 : q < 65536)
    (h0 : 0 < x) (hx : x < q) : x * invert x q % q = 1 := by
  have hq : 1 < q := hp.one_lt
  rw [invert_eq_pow x q hq hq16 hx]
  have hco : Nat.Coprime x q :=
    (hp.coprime_iff_not_dvd.mpr (Nat.not_dvd_of_pos_of_lt h0 hx)).symm
  have hft := Nat.ModEq.pow_totient hco
  rw [Nat.totient_prime hp] at hft
  have e1 : x * (x ^ (q - 2) % q) ≡ x * x ^ (q - 2) [MOD q] :=
    Nat.ModEq.mul_left x (Nat.mod_modEq _ _)
  have e2 : x * x ^ (q - 2) = x ^ (q - 1) := by
    have hsub : q - 1 = (q - 2) + 1 := by omega
    rw [hsub, pow_succ, Nat.mul_comm]
  calc x * (x ^ (q - 2) % q) % q
      = x * x ^ (q - 2) % q := e1
    _ = x ^ (q - 1) % q := by rw [e2]
    _ = 1 % q := hft
    _ = 1 := Nat.mod_eq_of_lt hq

/-- C4: for `0 < x < q` with `q` an odd prime fitting in 16 bits,
    `invert(x, q)` returns `x^(q-2) mod q`, computed by square-and-multiply
    over the bits of `q-2` from the least significant bit up to the highest
    set bit; consequently `(x * invert(x, q)) mod q = 1`. -/
theorem invert_spec (x q : Nat) (hp : q.Prime) (hodd : q % 2 = 1)
    (hq16 : q < 65536) (h0 : 0 < x) (hx : x < q) :
    invert x q = x ^ (q - 2) % q ∧ x * invert x q % q = 1 :=
  ⟨invert_eq_pow x q hp.one_lt hq16 hx, invert_mul_self x q hp hq16 h0 hx⟩

/-- Witness for C4 at `x = 5`, `q = 13`: the hypotheses hold and the
    conclusions evaluate. -/
theorem invert_spec_witness :
    Nat.Prime 13 ∧ 13 % 2 = 1 ∧ (13 : Nat) < 65536 ∧ 0 < 5 ∧ 5 < 13 ∧
      invert 5 13 = 5 ^ (13 - 2) % 13 ∧ 5 * invert 5 13 % 13 = 1 := by
  have hp : Nat.Prime 13 := by norm_num
  have h := invert_spec 5 13 hp (by norm_num) (by norm_num) (by norm_num) (by norm_num)
  exact ⟨hp, by norm_num, by norm_num, by norm_num, by norm_num, h.1, h.2⟩

/-! ## The z2d adjustment (C6) -/

/-- C6: in the signing loop's z2d derivation, for `ud[i]` and `uz2d[i]` in
    `[0, p)`, the emitted coefficient is congruent to `ud[i] - uz2d[i]`
    modulo `p` and lies in `(-p/2, p/2]`.  The deployed parameter sets all
    have an even `p` (`p = ⌊2q/2^d⌋` gives 24, 48, 96), which the interval
    statement uses. -/
theorem z2d_spec (p : Nat) (ud uz2d : Int) (hp : 0 < p) (he : p % 2 = 0)
    (h1 : 0 ≤ ud) (h2 : ud < p) (h3 : 0 ≤ uz2d) (h4 : uz2d < p) :
    z2d_value p ud uz2d % p = (ud - uz2d) % p ∧
      -((p : Int) / 2) < z2d_value p ud uz2d ∧
      z2d_value p ud uz2d ≤ (p : Int) / 2 := by
  have hp2 : ((p / 2 : Nat) : Int) = (p : Int) / 2 := Int.ofNat_div p 2
  have hpn : p = 2 * (p / 2) := by omega
  have hpi : (p : Int) = 2 * ((p : Int) / 2) := by
    rw [← hp2]
    exact_mod_cast congrArg (Nat.cast : Nat → Int) hpn
  have hadd : ∀ a : Int, (a + (p : Int)) % p = a % p := by
    intro a
    have h := Int.add_mul_emod_self_left (a := a) (b := (p : Int)) (c := 1)
    rw [Int.mul_one] at h
    exact h
  have hsub : ∀ a : Int, (a - (p : Int)) % p = a % p := by
    intro a
    have h := Int.add_mul_emod_self_left (a := a) (b := (p : Int)) (c := -1)
    rw [show a + (p : Int) * (-1) = a - p by ring] at h
    exact h
  simp only [z2d_value, hp2]
  split_ifs with ha hb
  · exact ⟨hadd _, by omega, by omega⟩
  · exact ⟨hsub _, by omega, by omega⟩
  · exact ⟨rfl, by omega, by omega⟩

/-- Witness for C6 at `p = 24`, `ud = 7`, `uz2d = 20`. -/
theorem z2d_spec_witness :
    (0 : Nat) < 24 ∧ (24 : Nat) % 2 = 0 ∧
      z2d_value 24 7 20 % 24 = ((7 : Int) - 20) % 24 ∧
      -((24 : Int) / 2) < z2d_value 24 7 20 ∧ z2d_value 24 7 20 ≤ (24 : Int) / 2 := by
  have h := z2d_spec 24 7 20 (by norm_num) (by norm_num) (by norm_num)
    (by norm_num) (by norm_num) (by norm_num)
  exact ⟨by norm_num, by norm_num, h.1, h.2.1, h.2.2⟩

/-! ## The `sign` dispatcher and `decrypt` (C7, C10) -/

/-- C7: for every scheme other than `SIGN_BLISS_WITH_SHA512`, `sign`
    returns `FALSE` and produces no signature bytes (`*signature` is never
    written), leaving the key untouched. -/
theorem sign_unsupported_scheme {S : Type} (E : SignExt S) (scheme : SigScheme)
    (key : BlissKey) (data : List Nat) (rng : Nat → Option (List Nat))
    (fuel : Nat) (h : scheme ≠ SigScheme.blissWithSha512) :
    sign E scheme key data rng fuel = ((false, none), key) := by
  cases scheme
  case blissWithSha512 => exact absurd rfl h
  all_goals rfl

/-- Witness for C7 at the `unknown` scheme. -/
theorem sign_unsupported_scheme_witness :
    SigScheme.unknown ≠ SigScheme.blissWithSha512 ∧
      sign trivExt SigScheme.unknown demoKey [] demoRng 1 = ((false, none), demoKey) :=
  ⟨by decide, sign_unsupported_scheme trivExt SigScheme.unknown demoKey [] demoRng 1 (by decide)⟩

/-- C10: `decrypt` fails for every encryption scheme, ciphertext and key,
    and writes nothing to the plaintext output. -/
theorem decrypt_always_fails :
    ∀ (key : BlissKey) (scheme : Nat) (crypto : List Nat),
      decrypt key scheme crypto = (false, none) :=
  fun _ _ _ => rfl

/-! ## Signing never mutates the key (C9) -/

/-- The rejection loop returns the key it was given, for every fuel and
    iteration index. -/
lemma sign_loop_key {S : Type} (E : SignExt S) (key : BlissKey)
    (dataHash A : List Nat) (rng : Nat → Option (List Nat)) :
    ∀ fuel k, (sign_loop E key dataHash A rng fuel k).2.1 = key := by
  intro fuel
  induction fuel with
  | zero => intro k; rfl
  | succ f ih =>
    intro k
    simp only [sign_loop]
    cases hr : rng k with
    | none => rfl
    | some seed =>
      cases hi : sign_iteration E key.set key.s1 key.s2 A dataHash seed with
      | fail => simp only [hi]
      | reject => simp only [hi]; exact ih (k + 1)
      | accept z1 z2d c => simp only [hi]

/-- `sign_bliss_with_sha512` returns the key it was given. -/
lemma sign_bliss_with_sha512_key {S : Type} (E : SignExt S) (key : BlissKey)
    (data : List Nat) (rng : Nat → Option (List Nat)) (fuel : Nat) :
    (sign_bliss_with_sha512 E key data rng fuel).2.1 = key := by
  unfold sign_bliss_with_sha512
  cases E.hashData data with
  | none => rfl
  | some dh => exact sign_loop_key E key dh (E.fft key.a) rng fuel 0

/-- C9: signing never mutates the private key: for every key, message and
    scheme, the key after a `sign` call (its parameter set, `s1`, `s2` and
    `a`) is the key before the call, whether signing succeeds or fails. -/
theorem sign_never_mutates_key {S : Type} (E : SignExt S) (scheme : SigScheme)
    (key : BlissKey) (data : List Nat) (rng : Nat → Option (List Nat))
    (fuel : Nat) : (sign E scheme key data rng fuel).2 = key := by
  cases scheme
  case blissWithSha512 =>
    have h := sign_bliss_with_sha512_key E key data rng fuel
    simp only [sign]
    rcases ht : sign_bliss_with_sha512 E key data rng fuel with ⟨res, key', c⟩
    rw [ht] at h
    exact h
  all_goals rfl

/-! ## Determinism of signing given the RNG stream (C8) -/

/-- The loop never decreases the RNG call counter. -/
lemma sign_loop_consumed_ge {S : Type} (E : SignExt S) (key : BlissKey)
    (dataHash A : List Nat) (rng : Nat → Option (List Nat)) :
    ∀ fuel k, k ≤ (sign_loop E key dataHash A rng fuel k).2.2 := by
  intro fuel
  induction fuel with
  | zero => intro k; exact Nat.le_refl k
  | succ f ih =>
    intro k
    simp only [sign_loop]
    cases hr : rng k with
    | none => exact Nat.le_succ k
    | some seed =>
      cases hi : sign_iteration E key.set key.s1 key.s2 A dataHash seed with
      | fail => simp only [hi]; exact Nat.le_succ k
      | reject => simp only [hi]; exact Nat.le_trans (Nat.le_succ k) (ih (k + 1))
      | accept z1 z2d c => simp only [hi]; exact Nat.le_succ k

/-- If a run of the loop consumes the RNG values at indices `[k, c)` and a
    second RNG stream agrees with the first on those indices, the second
    run produces the identical result. -/
lemma sign_loop_det {S : Type} (E : SignExt S) (key : BlissKey)
    (dataHash A : List Nat) (rng1 rng2 : Nat → Option (List Nat)) :
    ∀ fuel k res key' c,
      sign_loop E key dataHash A rng1 fuel k = (res, key', c) →
      (∀ j, k ≤ j → j < c → rng2 j = rng1 j) →
      sign_loop E key dataHash A rng2 fuel k = (res, key', c) := by
  intro fuel
  induction fuel with
  | zero => intro k res key' c h _; exact h
  | succ f ih =>
    intro k res key' c h hagree
    rw [sign_loop] at h ⊢
    cases hr : rng1 k with
    | none =>
      rw [hr] at h
      simp only [Prod.mk.injEq] at h
      obtain ⟨h1, h2, h3⟩ := h
      subst h1; subst h2; subst h3
      rw [hagree k (Nat.le_refl k) (by omega), hr]
    | some seed =>
      rw [hr] at h
      cases hi : sign_iteration E key.set key.s1 key.s2 A dataHash seed with
      | fail =>
        simp only [hi, Prod.mk.injEq] at h
        obtain ⟨h1, h2, h3⟩ := h
        subst h1; subst h2; subst h3
        rw [hagree k (Nat.le_refl k) (by omega), hr]
        simp only [hi]
      | accept z1 z2d cc =>
        simp only [hi, Prod.mk.injEq] at h
        obtain ⟨h1, h2, h3⟩ := h
        subst h1; subst h2; subst h3
        rw [hagree k (Nat.le_refl k) (by omega), hr]
        simp only [hi]
      | reject =>
        simp only [hi] at h
        have hk : k + 1 ≤ c := by
          have hge := sign_loop_consumed_ge E key dataHash A rng1 f (k + 1)
          rw [h] at hge
          exact hge
        rw [hagree k (Nat.le_refl k) (by omega), hr]
        simp only [hi]
        exact ih (k + 1) res key' c h
          (fun j hj1 hj2 => hagree j (by omega) hj2)

/-- C8: signing is deterministic given the consumed randomness: if a run of
    `sign_bliss_with_sha512` observes RNG values `rng1 0, ..., rng1 (c-1)`
    and a second stream agrees on exactly those values, the second run
    yields the identical signature bytes (and key and call count). -/
theorem sign_deterministic_given_rng {S : Type} (E : SignExt S)
    (key : BlissKey) (data : List Nat) (rng1 rng2 : Nat → Option (List Nat))
    (fuel : Nat) (res : Option (List Nat)) (key' : BlissKey) (c : Nat)
    (h : sign_bliss_with_sha512 E key data rng1 fuel = (res, key', c))
    (hagree : ∀ j, j < c → rng2 j = rng1 j) :
    sign_bliss_with_sha512 E key data rng2 fuel = (res, key', c) := by
  rw [sign_bliss_with_sha512] at h ⊢
  cases hd : E.hashData data with
  | none => rw [hd] at h; exact h
  | some dataHash =>
    rw [hd] at h
    exact sign_loop_det E key dataHash (E.fft key.a) rng1 rng2 fuel 0 res key' c h
      (fun j _ hj => hagree j hj)

/-- Witness for C8: a run with `demoRng` consumes one seed; `demoRng'`
    agrees on that seed only, and produces the identical signature. -/
theorem sign_deterministic_given_rng_witness :
    sign_bliss_with_sha512 trivExt demoKey [] demoRng 2 = (some [1], demoKey, 1) ∧
      (∀ j, j < 1 → demoRng' j = demoRng j) ∧
      sign_bliss_with_sha512 trivExt demoKey [] demoRng' 2 = (some [1], demoKey, 1) := by
  refine ⟨by decide, by decide, ?_⟩
  exact sign_deterministic_given_rng trivExt demoKey [] demoRng demoRng' 2
    (some [1]) demoKey 1 (by decide) (by decide)

/-! ## The Nk(S) norm (C2) -/

/-! ### The value sort: length, membership and sum -/

/-- Unfolding of `msort` on a list with at least two elements. -/
lemma msort_cons2 (f : Nat) (a b : Int) (t : List Int) :
    msort (f + 1) (a :: b :: t) = merge (a :: b :: t).length
      (msort f ((a :: b :: t).take ((a :: b :: t).length / 2)))
      (msort f ((a :: b :: t).drop ((a :: b :: t).length / 2))) := rfl

lemma length_merge : ∀ (f : Nat) (a b : List Int),
    (merge f a b).length = a.length + b.length := by
  intro f
  induction f with
  | zero => intro a b; simp [merge]
  | succ f ih =>
    intro a b
    cases a with
    | nil => simp [merge]
    | cons x xs =>
      cases b with
      | nil => simp [merge]
      | cons y ys =>
        rw [merge]
        split
        · simp only [List.length_cons, ih]
          omega
        · simp only [List.length_cons, ih]
          omega

lemma sum_merge : ∀ (f : Nat) (a b : List Int),
    (merge f a b).sum = a.sum + b.sum := by
  intro f
  induction f with
  | zero => intro a b; simp [merge]
  | succ f ih =>
    intro a b
    cases a with
    | nil => simp [merge]
    | cons x xs =>
      cases b with
      | nil => simp [merge]
      | cons y ys =>
        rw [merge]
        split
        · simp only [List.sum_cons, ih]
          ring
        · simp only [List.sum_cons, ih]
          ring

lemma length_msort : ∀ (f : Nat) (l : List Int), (msort f l).length = l.length := by
  intro f
  induction f with
  | zero => intro l; rfl
  | succ f ih =>
    intro l
    match l with
    | [] => rfl
    | [a] => rfl
    | a :: b :: t =>
      rw [msort_cons2, length_merge, ih, ih, List.length_take, List.length_drop]
      simp
      omega

lemma sum_msort : ∀ (f : Nat) (l : List Int), (msort f l).sum = l.sum := by
  intro f
  induction f with
  | zero => intro l; rfl
  | succ f ih =>
    intro l
    match l with
    | [] => rfl
    | [a] => rfl
    | a :: b :: t =>
      rw [msort_cons2, sum_merge, ih, ih]
      have h := congrArg List.sum
        (List.take_append_drop ((a :: b :: t).length / 2) (a :: b :: t))
      rw [List.sum_append] at h
      exact h

lemma length_sortInt (l : List Int) : (sortInt l).length = l.length :=
  length_msort l.length l

lemma sum_sortInt (l : List Int) : (sortInt l).sum = l.sum :=
  sum_msort l.length l

lemma sum_neg_map (l : List Nat) (f : Nat → Int) :
    (l.map (fun j => -(f j))).sum = -((l.map f).sum) := by
  induction l with
  | nil => simp
  | cons a t ih => simp [ih]; ring

lemma sum_map_neg (l : List Int) : (l.map (fun a => -a)).sum = -l.sum := by
  induction l with
  | nil => simp
  | cons a t ih => simp [ih]; ring

/-! ### `int16_t` and `uint32_t` accumulation -/

lemma wrap16_eq_self (x : Int) (h1 : -32768 ≤ x) (h2 : x ≤ 32767) :
    wrap16 x = x := by
  unfold wrap16
  omega

lemma wrap16_wrap16_add (x b : Int) : wrap16 (wrap16 x + b) = wrap16 (x + b) := by
  unfold wrap16
  omega

/-- An `int16_t` accumulation computes the `wrap16` of the exact sum; in
    particular its result does not depend on the summation order. -/
lemma foldl_add16_wrap : ∀ (l : List Int) (a : Int),
    l.foldl add16 (wrap16 a) = wrap16 (a + l.sum) := by
  intro l
  induction l with
  | nil => intro a; simp
  | cons b t ih =>
    intro a
    show List.foldl add16 (add16 (wrap16 a) b) t = _
    have h1 : add16 (wrap16 a) b = wrap16 (a + b) := wrap16_wrap16_add a b
    rw [h1, ih (a + b), List.sum_cons]
    congr 1
    ring

lemma foldl_add16_zero (l : List Int) : l.foldl add16 0 = wrap16 l.sum := by
  have h0 : (0 : Int) = wrap16 0 := by unfold wrap16; omega
  rw [h0, foldl_add16_wrap, zero_add]

lemma natAbs_sum_le (l : List Int) : l.sum.natAbs ≤ (l.map Int.natAbs).sum := by
  induction l with
  | nil => simp
  | cons a t ih =>
    simp only [List.sum_cons, List.map_cons]
    have h := Int.natAbs_add_le a t.sum
    omega

lemma sum_map_le (l : List Nat) (c : Nat) (h : ∀ a ∈ l, a ≤ c) :
    l.sum ≤ c * l.length := by
  induction l with
  | nil => simp
  | cons a t ih =>
    simp only [List.sum_cons, List.length_cons]
    have h1 := h a (List.mem_cons_self a t)
    have h2 := ih (fun b hb => h b (List.mem_cons_of_mem a hb))
    have h3 : c * (t.length + 1) = c * t.length + c := by ring
    omega

lemma getD_natAbs_le (x : List Int) (C : Nat) (h : ∀ a ∈ x, a.natAbs ≤ C)
    (i : Nat) : (x.getD i 0).natAbs ≤ C := by
  by_cases hi : i < x.length
  · rw [List.getD_eq_getElem x 0 hi]
    exact h _ (List.getElem_mem hi)
  · rw [List.getD_eq_default x 0 (by omega)]
    simp

/-- When the absolute values of the summands cannot reach the `int16_t`
    boundary, the wrapped accumulation is the exact sum. -/
lemma foldl_add16_exact (l : List Int) (h : (l.map Int.natAbs).sum ≤ 32767) :
    l.foldl add16 0 = l.sum := by
  rw [foldl_add16_zero]
  have h1 := natAbs_sum_le l
  exact wrap16_eq_self _ (by omega) (by omega)

/-- A `uint32_t` accumulation of `int16_t` values computes the exact sum
    reduced modulo `2^32`. -/
lemma foldl_add_u32_eq : ∀ (l : List Int) (acc : Nat), acc < 4294967296 →
    l.foldl add_u32 acc = (((acc : Int) + l.sum) % 4294967296).toNat := by
  intro l
  induction l with
  | nil =>
    intro acc h
    simp only [List.foldl_nil, List.sum_nil, add_zero]
    omega
  | cons b t ih =>
    intro acc h
    show t.foldl add_u32 (add_u32 acc b) = _
    have hlt : add_u32 acc b < 4294967296 := by
      unfold add_u32
      omega
    rw [ih (add_u32 acc b) hlt]
    have hcast : ((add_u32 acc b : Nat) : Int) = ((acc : Int) + b) % 4294967296 := by
      unfold add_u32
      omega
    rw [hcast, List.sum_cons]
    have hmod : (((acc : Int) + b) % 4294967296 + t.sum) % 4294967296
        = ((acc : Int) + (b + t.sum)) % 4294967296 := by
      omega
    rw [hmod]

/-! ### The machine `nks_norm` agrees with the exact one when nothing
    wraps -/

lemma wrapped_product_eq_exact (x y : List Int) (n shift : Nat)
    (hx : ∀ a ∈ x, a.natAbs ≤ 1) (hy : ∀ a ∈ y, a.natAbs ≤ 1)
    (hs : shift ≤ n) (hn : n ≤ 32767) :
    wrapped_product x y n shift = wrapped_product_exact x y n shift := by
  unfold wrapped_product wrapped_product_exact
  have hb : ∀ z ∈ ((List.range (n - shift)).map
        (fun i => x.getD i 0 * y.getD (i + shift) 0)) ++
      ((List.range shift).map
        (fun j => -(x.getD (n - shift + j) 0 * y.getD j 0))), z.natAbs ≤ 1 := by
    intro z hz
    rcases List.mem_append.mp hz with h | h
    · rw [List.mem_map] at h
      obtain ⟨i, _, rfl⟩ := h
      rw [Int.natAbs_mul]
      exact Nat.mul_le_mul (getD_natAbs_le x 1 hx i) (getD_natAbs_le y 1 hy (i + shift))
    · rw [List.mem_map] at h
      obtain ⟨j, _, rfl⟩ := h
      rw [Int.natAbs_neg, Int.natAbs_mul]
      exact Nat.mul_le_mul (getD_natAbs_le x 1 hx (n - shift + j)) (getD_natAbs_le y 1 hy j)
  have hbound : ((((List.range (n - shift)).map
        (fun i => x.getD i 0 * y.getD (i + shift) 0)) ++
      ((List.range shift).map
        (fun j => -(x.getD (n - shift + j) 0 * y.getD j 0)))).map Int.natAbs).sum
      ≤ 32767 := by
    have h1 : ((((List.range (n - shift)).map
          (fun i => x.getD i 0 * y.getD (i + shift) 0)) ++
        ((List.range shift).map
          (fun j => -(x.getD (n - shift + j) 0 * y.getD j 0)))).map Int.natAbs).sum
        ≤ 1 * ((((List.range (n - shift)).map
          (fun i => x.getD i 0 * y.getD (i + shift) 0)) ++
        ((List.range shift).map
          (fun j => -(x.getD (n - shift + j) 0 * y.getD j 0)))).map Int.natAbs).length := by
      apply sum_map_le
      intro a ha
      rw [List.mem_map] at ha
      obtain ⟨z, hz, rfl⟩ := ha
      exact hb z hz
    simp only [List.length_map, List.length_append, List.length_range] at h1
    omega
  rw [foldl_add16_exact _ hbound, List.sum_append, sum_neg_map]
  ring

lemma wrap_eq_exact (x : List Int) (n s : Nat) (C : Nat) (hC : C ≤ 32767)
    (hx : ∀ a ∈ x, a.natAbs ≤ C) :
    wrap x n s = wrap_exact x n s := by
  unfold wrap wrap_exact
  congr 1
  apply List.map_congr_left
  intro a ha
  have hb := hx a (List.mem_of_mem_drop ha)
  exact wrap16_eq_self _ (by omega) (by omega)

/-- With `kappa` equal to the array length, the machine `top_sum` is the
    `wrap16` of the plain sum (the sort becomes irrelevant). -/
lemma top_sum_full (l : List Int) : top_sum l.length l = wrap16 l.sum := by
  unfold top_sum
  rw [Nat.sub_self, List.drop_zero, foldl_add16_zero, sum_sortInt]

/-- With `kappa` equal to the array length, the exact `top_sum` is the
    plain sum. -/
lemma top_sum_exact_full (l : List Int) : top_sum_exact l.length l = l.sum := by
  unfold top_sum_exact
  rw [Nat.sub_self, List.drop_zero, sum_sortInt]

/-! ### The exact computation is the claim's Nk(S) norm -/

/-- Element description of the spec's rotation. -/
lemma rho_rot_getD (x : List Int) (s j : Nat) (hj : j < x.length) :
    (rho_rot s x).getD j 0 =
      if j < s then -(x.getD (x.length - s + j) 0) else x.getD (j - s) 0 := by
  have hlen : (rho_rot s x).length = x.length := by simp [rho_rot]
  rw [List.getD_eq_getElem _ 0 (show j < (rho_rot s x).length by omega)]
  simp only [rho_rot, List.getElem_map, List.getElem_range]

/-- The spec's inner product with the rotated vector is the source's
    `wrapped_product` (exactly evaluated). -/
lemma dot_rho (x : List Int) (s : Nat) (hs : s ≤ x.length) :
    dot_spec x (rho_rot s x) = wrapped_product_exact x x x.length s := by
  unfold dot_spec wrapped_product_exact
  have hsplit : List.range x.length
      = List.range s ++ (List.range (x.length - s)).map (s + ·) := by
    rw [← List.range_add]
    congr 1
    omega
  rw [hsplit, List.map_append, List.sum_append]
  have hone : ((List.range s).map (fun j => x.getD j 0 * (rho_rot s x).getD j 0)).sum
      = -(((List.range s).map (fun j => x.getD (x.length - s + j) 0 * x.getD j 0)).sum) := by
    rw [← sum_neg_map]
    apply congrArg List.sum
    apply List.map_congr_left
    intro j hj
    rw [List.mem_range] at hj
    rw [rho_rot_getD x s j (by omega), if_pos hj]
    ring
  have htwo : (((List.range (x.length - s)).map (s + ·)).map
        (fun j => x.getD j 0 * (rho_rot s x).getD j 0)).sum
      = ((List.range (x.length - s)).map (fun i => x.getD i 0 * x.getD (i + s) 0)).sum := by
    rw [List.map_map]
    apply congrArg List.sum
    apply List.map_congr_left
    intro i hi
    rw [List.mem_range] at hi
    simp only [Function.comp]
    rw [rho_rot_getD x s (s + i) (by omega), if_neg (by omega)]
    have hidx : s + i - s = i := by omega
    have hidx2 : s + i = i + s := by omega
    rw [hidx, hidx2]
    ring
  rw [hone, htwo]
  ring

lemma take_eq_range_map (x : List Int) (m : Nat) (hm : m ≤ x.length) :
    x.take m = (List.range m).map (fun i => x.getD i 0) := by
  apply List.ext_getElem
  · simp
    omega
  · intro j h1 h2
    have hj : j < m := by simpa using h2
    simp only [List.getElem_take, List.getElem_map, List.getElem_range]
    rw [List.getD_eq_getElem x 0 (by omega)]

lemma drop_map_neg_eq (x : List Int) (s : Nat) (hs : s ≤ x.length) :
    (x.drop (x.length - s)).map (fun a => -a)
      = (List.range s).map (fun j => -(x.getD (x.length - s + j) 0)) := by
  apply List.ext_getElem
  · simp
    omega
  · intro j h1 h2
    have hj : j < s := by simpa using h2
    simp only [List.getElem_map, List.getElem_drop, List.getElem_range]
    rw [List.getD_eq_getElem x 0 (by omega)]

/-- The source's `wrap` (exactly evaluated) is the spec's negative-wrapped
    rotation. -/
lemma wrap_eq_rho (x : List Int) (s : Nat) (hs : s ≤ x.length) :
    wrap_exact x x.length s = rho_rot s x := by
  unfold wrap_exact rho_rot
  have hr : List.range x.length
      = List.range s ++ (List.range (x.length - s)).map (s + ·) := by
    rw [← List.range_add]
    congr 1
    omega
  rw [hr, List.map_append]
  congr 1
  · rw [drop_map_neg_eq x s hs]
    apply List.map_congr_left
    intro j hj
    rw [List.mem_range] at hj
    rw [if_pos hj]
  · rw [take_eq_range_map x (x.length - s) (by omega), List.map_map]
    apply List.map_congr_left
    intro i hi
    rw [List.mem_range] at hi
    simp only [Function.comp]
    rw [if_neg (by omega)]
    congr 1
    omega

lemma wrap_eq_rho' (x : List Int) (n s : Nat) (hx : x.length = n) (hs : s ≤ n) :
    wrap_exact x n s = rho_rot s x := by
  subst hx
  exact wrap_eq_rho x s hs

/-- "Sum of the last kappa of the ascending sort" is "sum of the top kappa
    entries". -/
lemma top_sum_eq_spec (k : Nat) (l : List Int) :
    top_sum_exact k l = top_sum_spec k l := by
  unfold top_sum_exact top_sum_spec
  rw [List.take_reverse, List.sum_reverse, length_sortInt]

/-- The exactly-evaluated `nks_norm` computes the Nk(S) norm exactly as
    the claim words it. -/
lemma nks_exact_eq_spec (s1 s2 : List Int) (n kappa : Nat)
    (h1 : s1.length = n) (h2 : s2.length = n) :
    nks_norm_exact s1 s2 n kappa = nks_spec s1 s2 n kappa := by
  simp only [nks_norm_exact, nks_spec]
  have hT : (List.range n).map
        (fun i => dot_spec s1 (rho_rot i s1) + dot_spec s2 (rho_rot i s2))
      = (List.range n).map
        (fun i => wrapped_product_exact s1 s1 n i + wrapped_product_exact s2 s2 n i) := by
    apply List.map_congr_left
    intro i hi
    rw [List.mem_range] at hi
    rw [dot_rho s1 i (by omega), dot_rho s2 i (by omega), h1, h2]
  rw [hT]
  have hTlen : ((List.range n).map
      (fun i => wrapped_product_exact s1 s1 n i + wrapped_product_exact s2 s2 n i)).length
      = n := by
    simp
  have hM : (List.range n).map (fun i => top_sum_exact kappa
        (wrap_exact ((List.range n).map
          (fun i => wrapped_product_exact s1 s1 n i + wrapped_product_exact s2 s2 n i)) n i))
      = (List.range n).map (fun i => top_sum_spec kappa
        (rho_rot i ((List.range n).map
          (fun i => wrapped_product_exact s1 s1 n i + wrapped_product_exact s2 s2 n i)))) := by
    apply List.map_congr_left
    intro i hi
    rw [List.mem_range] at hi
    rw [wrap_eq_rho' _ n i hTlen (by omega), top_sum_eq_spec]
  rw [hM, top_sum_eq_spec]

/-! ### Bridging the machine `nks_norm` to the exact one -/

lemma getD_replicate_one (k i : Nat) :
    (List.replicate k (1 : Int)).getD i 0 = if i < k then 1 else 0 := by
  by_cases h : i < k
  · rw [if_pos h, List.getD_eq_getElem _ _ (by simpa using h), List.getElem_replicate]
  · rw [if_neg h, List.getD_eq_default _ _ (by simpa using h)]

lemma wrapped_product_exact_ones (s : Nat) (hs : s ≤ 182) :
    wrapped_product_exact allOnes182 allOnes182 182 s
      = ((182 - s : Nat) : Int) - (s : Nat) := by
  unfold wrapped_product_exact
  have hA : (List.range (182 - s)).map
        (fun i => allOnes182.getD i 0 * allOnes182.getD (i + s) 0)
      = (List.range (182 - s)).map (fun _ => (1 : Int)) := by
    apply List.map_congr_left
    intro i hi
    rw [List.mem_range] at hi
    simp only [allOnes182, getD_replicate_one]
    rw [if_pos (by omega), if_pos (by omega)]
    norm_num
  have hB : (List.range s).map
        (fun j => allOnes182.getD (182 - s + j) 0 * allOnes182.getD j 0)
      = (List.range s).map (fun _ => (1 : Int)) := by
    apply List.map_congr_left
    intro j hj
    rw [List.mem_range] at hj
    simp only [allOnes182, getD_replicate_one]
    rw [if_pos (by omega), if_pos (by omega)]
    norm_num
  have hsum : ∀ k : Nat, ((List.range k).map (fun _ => (1 : Int))).sum = (k : Nat) := by
    intro k
    induction k with
    | zero => simp
    | succ k ih =>
      rw [List.range_succ, List.map_append, List.sum_append, ih]
      simp
  rw [hA, hB, hsum, hsum]

lemma wp_ones_sum (i : Nat) (hi : i < 182) :
    wrapped_product_exact allOnes182 allOnes182 182 i
      + wrapped_product_exact allOnes182 allOnes182 182 i = 364 - 4 * (i : Int) := by
  rw [wrapped_product_exact_ones i (by omega)]
  have hcast : ((182 - i : Nat) : Int) = 182 - (i : Int) := by
    rw [Nat.cast_sub (by omega)]
    norm_num
  rw [hcast]
  ring

lemma allOnes182_natAbs : ∀ a ∈ allOnes182, a.natAbs ≤ 1 := by
  intro a ha
  simp only [allOnes182, List.mem_replicate] at ha
  simp [ha.2]

lemma tm_ones_eq :
    (List.range 182).map
        (fun i => wrap16 (wrapped_product allOnes182 allOnes182 182 i
          + wrapped_product allOnes182 allOnes182 182 i))
      = (List.range 182).map (fun j : Nat => (364 : Int) - 4 * (j : Int)) := by
  apply List.map_congr_left
  intro i hi
  rw [List.mem_range] at hi
  rw [wrapped_product_eq_exact allOnes182 allOnes182 182 i allOnes182_natAbs
    allOnes182_natAbs (by omega) (by norm_num)]
  rw [wp_ones_sum i hi]
  exact wrap16_eq_self _ (by omega) (by omega)

lemma te_ones_eq :
    (List.range 182).map
        (fun i => wrapped_product_exact allOnes182 allOnes182 182 i
          + wrapped_product_exact allOnes182 allOnes182 182 i)
      = (List.range 182).map (fun j : Nat => (364 : Int) - 4 * (j : Int)) := by
  apply List.map_congr_left
  intro i hi
  rw [List.mem_range] at hi
  exact wp_ones_sum i hi

lemma tformula_sum (m : Nat) :
    ((List.range m).map (fun j : Nat => (364 : Int) - 4 * (j : Int))).sum
      = 364 * (m : Int) - 2 * m * ((m : Int) - 1) := by
  induction m with
  | zero => simp
  | succ m ih =>
    rw [List.range_succ, List.map_append, List.sum_append, ih]
    simp only [List.map_cons, List.map_nil, List.sum_cons, List.sum_nil]
    push_cast
    ring

lemma tformula_take_sum (m : Nat) (hm : m ≤ 182) :
    (((List.range 182).map (fun j : Nat => (364 : Int) - 4 * (j : Int))).take m).sum
      = 364 * (m : Int) - 2 * m * ((m : Int) - 1) := by
  rw [← List.map_take, List.take_range, Nat.min_eq_left hm, tformula_sum]

lemma tformula_total :
    ((List.range 182).map (fun j : Nat => (364 : Int) - 4 * (j : Int))).sum = 364 := by
  rw [tformula_sum]
  norm_num

lemma tformula_drop_sum (m : Nat) (hm : m ≤ 182) :
    (((List.range 182).map (fun j : Nat => (364 : Int) - 4 * (j : Int))).drop m).sum
      = 364 - (364 * (m : Int) - 2 * m * ((m : Int) - 1)) := by
  have h := congrArg List.sum
    (List.take_append_drop m ((List.range 182).map (fun j : Nat => (364 : Int) - 4 * (j : Int))))
  rw [List.sum_append, tformula_take_sum m hm, tformula_total] at h
  linarith

lemma tformula_elts :
    ∀ a ∈ (List.range 182).map (fun j : Nat => (364 : Int) - 4 * (j : Int)), a.natAbs ≤ 364 := by
  intro a ha
  rw [List.mem_map] at ha
  obtain ⟨j, hj, rfl⟩ := ha
  rw [List.mem_range] at hj
  omega

lemma wrap_exact_tformula_sum (i : Nat) (hi : i < 182) :
    (wrap_exact ((List.range 182).map (fun j : Nat => (364 : Int) - 4 * (j : Int))) 182 i).sum
      = 2 * (364 * ((182 : Int) - (i : Int))
          - 2 * ((182 : Int) - (i : Int)) * (((182 : Int) - (i : Int)) - 1)) - 364 := by
  unfold wrap_exact
  rw [List.sum_append, sum_map_neg,
    tformula_drop_sum (182 - i) (by omega), tformula_take_sum (182 - i) (by omega)]
  have hcast : ((182 - i : Nat) : Int) = 182 - (i : Int) := by
    rw [Nat.cast_sub (by omega)]
    norm_num
  rw [hcast]
  ring

lemma wrap_tformula_sum (i : Nat) (hi : i < 182) :
    (wrap ((List.range 182).map (fun j : Nat => (364 : Int) - 4 * (j : Int))) 182 i).sum
      = 2 * (364 * ((182 : Int) - (i : Int))
          - 2 * ((182 : Int) - (i : Int)) * (((182 : Int) - (i : Int)) - 1)) - 364 := by
  rw [wrap_eq_exact _ 182 i 364 (by norm_num) tformula_elts]
  exact wrap_exact_tformula_sum i hi

set_option maxRecDepth 8192 in
/-- The machine value at the counterexample input. -/
lemma nks_norm_ce : nks_norm allOnes182 allOnes182 182 182 = 2839640 := by
  simp only [nks_norm]
  rw [tm_ones_eq]
  have hmk : (List.range 182).map (fun i => top_sum 182
        (wrap ((List.range 182).map (fun j : Nat => (364 : Int) - 4 * (j : Int))) 182 i))
      = (List.range 182).map (fun i : Nat => wrap16
        (2 * (364 * ((182 : Int) - (i : Int))
            - 2 * ((182 : Int) - (i : Int)) * (((182 : Int) - (i : Int)) - 1)) - 364)) := by
    apply List.map_congr_left
    intro i hi
    rw [List.mem_range] at hi
    set W := wrap ((List.range 182).map (fun j : Nat => (364 : Int) - 4 * (j : Int))) 182 i with hW
    have hlen : W.length = 182 := by
      rw [hW]
      unfold wrap
      rw [List.length_append, List.length_map, List.length_drop, List.length_take]
      simp
    rw [show (182 : Nat) = W.length from hlen.symm, top_sum_full W, hW,
      wrap_tformula_sum i hi]
  rw [hmk]
  rw [List.length_map, List.length_range, Nat.sub_self, List.drop_zero,
    foldl_add_u32_eq _ 0 (by norm_num), sum_sortInt]
  decide

set_option maxRecDepth 8192 in
/-- The exact Nk(S) norm at the counterexample input. -/
lemma nks_spec_ce : nks_spec allOnes182 allOnes182 182 182 = 4019288 := by
  rw [← nks_exact_eq_spec allOnes182 allOnes182 182 182
    (by simp only [allOnes182, List.length_replicate])
    (by simp only [allOnes182, List.length_replicate])]
  simp only [nks_norm_exact]
  rw [te_ones_eq]
  have hmk : (List.range 182).map (fun i => top_sum_exact 182
        (wrap_exact ((List.range 182).map (fun j : Nat => (364 : Int) - 4 * (j : Int))) 182 i))
      = (List.range 182).map (fun i : Nat =>
        2 * (364 * ((182 : Int) - (i : Int))
          - 2 * ((182 : Int) - (i : Int)) * (((182 : Int) - (i : Int)) - 1)) - 364) := by
    apply List.map_congr_left
    intro i hi
    rw [List.mem_range] at hi
    set W := wrap_exact ((List.range 182).map (fun j : Nat => (364 : Int) - 4 * (j : Int))) 182 i with hW
    have hlen : W.length = 182 := by
      rw [hW]
      unfold wrap_exact
      rw [List.length_append, List.length_map, List.length_drop, List.length_take]
      simp
    rw [show (182 : Nat) = W.length from hlen.symm, top_sum_exact_full W, hW,
      wrap_exact_tformula_sum i hi]
  rw [hmk]
  set MKE := (List.range 182).map (fun i : Nat =>
    2 * (364 * ((182 : Int) - (i : Int))
      - 2 * ((182 : Int) - (i : Int)) * (((182 : Int) - (i : Int)) - 1)) - 364) with hMKE
  have hlenmk : MKE.length = 182 := by
    rw [hMKE, List.length_map, List.length_range]
  rw [show (182 : Nat) = MKE.length from hlenmk.symm, top_sum_exact_full MKE, hMKE]
  decide

/-- Counterexample to the unamended C2: on the in-domain input
    `s1 = s2 = (1, ..., 1)`, `n = kappa = 182` (ternary, `kappa ∈ [1, n]`)
    the source's `nks_norm` returns 2839640 while the Nk(S) norm of the
    claim is 4019288: eighteen of the `int16_t` `max_kappa` stores wrap.
    With `kappa = n` both sorted arrays are summed in full, so the value
    returned by the source does not depend on the order `qsort` produces
    even though the `int16_t` comparator overflows on this array. -/
theorem nks_norm_claim_counterexample :
    allOnes182.length = 182 ∧
      (∀ x ∈ allOnes182, x = -1 ∨ x = 0 ∨ x = 1) ∧
      ((nks_norm allOnes182 allOnes182 182 182 : Nat) : Int)
        ≠ nks_spec allOnes182 allOnes182 182 182 := by
  refine ⟨by simp only [allOnes182, List.length_replicate], ?_, ?_⟩
  · intro x hx
    simp only [allOnes182, List.mem_replicate] at hx
    right; right; exact hx.2
  · rw [nks_norm_ce, nks_spec_ce]
    decide

/-! ## The sparse-vector sampler (C3) -/

lemma bits_val_go (l : List Bool) : ∀ acc : Nat,
    l.foldl (fun a b => 2 * a + (if b then 1 else 0)) acc < (acc + 1) * 2 ^ l.length := by
  induction l with
  | nil => intro acc; simp
  | cons b t ih =>
    intro acc
    simp only [List.foldl_cons, List.length_cons]
    have h1 := ih (2 * acc + (if b then 1 else 0))
    have h2 : (2 * acc + (if b then 1 else 0) + 1) * 2 ^ t.length
        ≤ (acc + 1) * 2 ^ (t.length + 1) := by
      have hb : (if b then 1 else 0) ≤ 1 := by split <;> omega
      have hpw : (2 : Nat) ^ (t.length + 1) = 2 * 2 ^ t.length := by ring
      rw [hpw]
      calc (2 * acc + (if b then 1 else 0) + 1) * 2 ^ t.length
          ≤ (2 * acc + 2) * 2 ^ t.length := Nat.mul_le_mul_right _ (by omega)
        _ = (acc + 1) * (2 * 2 ^ t.length) := by ring
    exact Nat.lt_of_lt_of_le h1 h2

lemma bits_val_lt (l : List Bool) : bits_val l < 2 ^ l.length := by
  have h := bits_val_go l 0
  simpa [bits_val] using h

lemma get_bits_some (k : Nat) (s : List Bool) (i : Nat) (s' : List Bool)
    (h : get_bits k s = some (i, s')) :
    i < 2 ^ k ∧ s' = s.drop k ∧ k ≤ s.length := by
  unfold get_bits at h
  split at h
  · rename_i hk
    simp only [Option.some.injEq, Prod.mk.injEq] at h
    obtain ⟨h1, h2⟩ := h
    refine ⟨?_, h2.symm, hk⟩
    rw [← h1]
    have hv := bits_val_lt (s.take k)
    rwa [List.length_take, Nat.min_eq_left hk] at hv
  · exact absurd h (by simp)

lemma get_bits_append (k : Nat) (s t : List Bool) (i : Nat) (s' : List Bool)
    (h : get_bits k s = some (i, s')) :
    get_bits k (s ++ t) = some (i, s' ++ t) := by
  obtain ⟨_, hs', hk⟩ := get_bits_some k s i s' h
  unfold get_bits at h ⊢
  rw [if_pos hk] at h
  rw [if_pos (show k ≤ (s ++ t).length by rw [List.length_append]; omega)]
  rw [List.take_append_of_le_length hk, List.drop_append_of_le_length hk]
  simp only [Option.some.injEq, Prod.mk.injEq] at h ⊢
  exact ⟨h.1, by rw [h.2]⟩

lemma countP_set (p : Int → Bool) (v : List Int) (i : Nat) (a : Int) (h : i < v.length) :
    (v.set i a).countP p + (if p v[i] then 1 else 0)
      = v.countP p + (if p a then 1 else 0) := by
  induction v generalizing i with
  | nil => simp at h
  | cons b t ih =>
    cases i with
    | zero => simp [List.countP_cons]; omega
    | succ j =>
      simp only [List.set_cons_succ, List.countP_cons, List.getElem_cons_succ]
      have hj := ih j (by simpa using h)
      omega

/-- Invariant of one `while (non_zero)` phase: on success the phase adds
    exactly `non_zero` entries of magnitude `val` in previously-zero slots,
    leaves every other magnitude count unchanged, and only writes `±val`. -/
lemma fill_loop_spec (nbits : Nat) (val : Int) (hval : 0 < val) :
    ∀ (fuel : Nat) (v : List Int) (s : List Bool) (nz : Nat) (v' : List Int)
      (s' : List Bool),
      2 ^ nbits ≤ v.length →
      fill_loop nbits val fuel v s nz = some (v', s') →
      v'.length = v.length ∧
      countPM v' val = countPM v val + nz ∧
      (∀ b : Int, 0 < b → b ≠ val → countPM v' b = countPM v b) ∧
      (∀ x ∈ v', x ∈ v ∨ x = val ∨ x = -val) := by
  intro fuel
  induction fuel with
  | zero => intro v s nz v' s' _ h; simp [fill_loop] at h
  | succ fuel ih =>
    intro v s nz v' s' hlen h
    cases nz with
    | zero =>
      rw [fill_loop] at h
      simp only [Option.some.injEq, Prod.mk.injEq] at h
      obtain ⟨h1, _⟩ := h
      subst h1
      exact ⟨rfl, by omega, fun b _ _ => rfl, fun x hx => Or.inl hx⟩
    | succ nz =>
      rw [fill_loop] at h
      cases hgb : get_bits nbits s with
      | none => rw [hgb] at h; simp at h
      | some is1 =>
        obtain ⟨index, s1⟩ := is1
        simp only [hgb] at h
        by_cases hz : v.getD index 0 ≠ 0
        · rw [if_pos hz] at h
          exact ih v s1 (nz + 1) v' s' hlen h
        · rw [if_neg hz] at h
          push_neg at hz
          cases hgb2 : get_bits 1 s1 with
          | none => rw [hgb2] at h; simp at h
          | some gs2 =>
            obtain ⟨sgn, s2⟩ := gs2
            simp only [hgb2] at h
            have hidx : index < v.length := by
              have := (get_bits_some nbits s index s1 hgb).1
              omega
            have hvi : v[index] = 0 := by
              rw [← List.getD_eq_getElem v 0 hidx]
              exact hz
            set newval : Int := if sgn = 1 then val else -val with hnv
            have hset_len : (v.set index newval).length = v.length := by simp
            obtain ⟨ih1, ih2, ih3, ih4⟩ :=
              ih (v.set index newval) s2 nz v' s' (by omega) h
            have hp0 : ∀ b : Int, 0 < b → (((0 : Int) == b) || ((0 : Int) == -b)) = false := by
              intro b hb
              simp only [Bool.or_eq_false_iff, beq_eq_false_iff_ne, ne_eq]
              constructor <;> omega
            have hpval : ((newval == val) || (newval == -val)) = true := by
              rw [hnv]
              split
              · simp
              · simp
            refine ⟨by rw [ih1, hset_len], ?_, ?_, ?_⟩
            · have hcs := countP_set (fun x => x == val || x == -val) v index newval hidx
              rw [hvi] at hcs
              rw [hp0 val hval] at hcs
              rw [hpval] at hcs
              simp only [Bool.false_eq_true, eq_self_iff_true, if_false, if_true] at hcs
              have hone : countPM (v.set index newval) val = countPM v val + 1 := by
                unfold countPM
                omega
              rw [ih2, hone]
              omega
            · intro b hb hbv
              have hpb : ((newval == b) || (newval == -b)) = false := by
                rw [hnv]
                split
                · simp only [Bool.or_eq_false_iff, beq_eq_false_iff_ne, ne_eq]
                  constructor <;> omega
                · simp only [Bool.or_eq_false_iff, beq_eq_false_iff_ne, ne_eq]
                  constructor <;> omega
              have hcs := countP_set (fun x => x == b || x == -b) v index newval hidx
              rw [hvi, hp0 b hb, hpb] at hcs
              simp only [Bool.false_eq_true, if_false] at hcs
              have hsame : countPM (v.set index newval) b = countPM v b := by
                unfold countPM
                omega
              rw [ih3 b hb hbv, hsame]
            · intro x hx
              rcases ih4 x hx with hx1 | hx2
              · rcases List.mem_or_eq_of_mem_set hx1 with hx3 | hx4
                · exact Or.inl hx3
                · rw [hnv] at hx4
                  by_cases hs : sgn = 1
                  · rw [if_pos hs] at hx4
                    exact Or.inr (Or.inl hx4)
                  · rw [if_neg hs] at hx4
                    exact Or.inr (Or.inr hx4)
              · exact Or.inr hx2

/-- Appending bits to the stream does not change a successful phase. -/
lemma fill_loop_append (nbits : Nat) (val : Int) :
    ∀ (fuel : Nat) (v : List Int) (s : List Bool) (nz : Nat) (v' : List Int)
      (s' : List Bool) (t : List Bool),
      fill_loop nbits val fuel v s nz = some (v', s') →
      fill_loop nbits val fuel v (s ++ t) nz = some (v', s' ++ t) := by
  intro fuel
  induction fuel with
  | zero => intro v s nz v' s' t h; simp [fill_loop] at h
  | succ fuel ih =>
    intro v s nz v' s' t h
    cases nz with
    | zero =>
      rw [fill_loop] at h ⊢
      simp only [Option.some.injEq, Prod.mk.injEq] at h ⊢
      exact ⟨h.1, by rw [h.2]⟩
    | succ nz =>
      rw [fill_loop] at h ⊢
      cases hgb : get_bits nbits s with
      | none => rw [hgb] at h; simp at h
      | some is1 =>
        obtain ⟨index, s1⟩ := is1
        simp only [hgb] at h
        simp only [get_bits_append nbits s t index s1 hgb]
        by_cases hz : v.getD index 0 ≠ 0
        · rw [if_pos hz] at h ⊢
          exact ih v s1 (nz + 1) v' s' t h
        · rw [if_neg hz] at h ⊢
          cases hgb2 : get_bits 1 s1 with
          | none => rw [hgb2] at h; simp at h
          | some gs2 =>
            obtain ⟨sgn, s2⟩ := gs2
            simp only [hgb2] at h
            simp only [get_bits_append 1 s1 t sgn s2 hgb2]
            exact ih _ s2 nz v' s' t h

/-- Extra fuel does not change a successful phase. -/
lemma fill_loop_fuel_mono (nbits : Nat) (val : Int) :
    ∀ (fuel m : Nat) (v : List Int) (s : List Bool) (nz : Nat)
      (r : List Int × List Bool),
      fill_loop nbits val fuel v s nz = some r →
      fill_loop nbits val (fuel + m) v s nz = some r := by
  intro fuel
  induction fuel with
  | zero => intro m v s nz r h; simp [fill_loop] at h
  | succ fuel ih =>
    intro m v s nz r h
    have heq : fuel + 1 + m = (fuel + m) + 1 := by omega
    rw [heq]
    cases nz with
    | zero =>
      rw [fill_loop] at h ⊢
      exact h
    | succ nz =>
      rw [fill_loop] at h ⊢
      cases hgb : get_bits nbits s with
      | none => rw [hgb] at h; simp at h
      | some is1 =>
        obtain ⟨index, s1⟩ := is1
        simp only [hgb] at h ⊢
        by_cases hz : v.getD index 0 ≠ 0
        · rw [if_pos hz] at h ⊢
          exact ih m v s1 (nz + 1) r h
        · rw [if_neg hz] at h ⊢
          cases hgb2 : get_bits 1 s1 with
          | none => rw [hgb2] at h; simp at h
          | some gs2 =>
            obtain ⟨sgn, s2⟩ := gs2
            simp only [hgb2] at h ⊢
            exact ih m _ s2 nz r h

lemma countPM_replicate (n : Nat) (a : Int) (ha : 0 < a) :
    countPM (List.replicate n 0) a = 0 := by
  induction n with
  | zero => rfl
  | succ n ih =>
    unfold countPM at ih ⊢
    rw [List.replicate_succ, List.countP_cons, ih]
    have hp : (((0 : Int) == a) || ((0 : Int) == -a)) = false := by
      simp only [Bool.or_eq_false_iff, beq_eq_false_iff_ne, ne_eq]
      constructor <;> omega
    rw [hp]
    simp

/-! ### Failure analysis: a failing run is rescued by more bits

`create_vector_from_seed` can return nothing only because a `get_bits`
call failed, i.e. because the MGF1 bit spender could not supply the
requested bits; the fuel `stream length + 1` can never be exhausted first
when `n_bits ≥ 1`, because every iteration consumes at least one bit.
This is captured by showing that every failing stream has an extension on
which the very same run succeeds. -/

lemma bits_val_append_bit (l : List Bool) (b : Bool) :
    bits_val (l ++ [b]) = 2 * bits_val l + (if b then 1 else 0) := by
  unfold bits_val
  rw [List.foldl_append]
  rfl

/-- Every index below `2^k` is the value of some `k`-bit string. -/
lemma exists_bits (k : Nat) : ∀ i : Nat, i < 2 ^ k →
    ∃ l : List Bool, l.length = k ∧ bits_val l = i := by
  induction k with
  | zero =>
    intro i hi
    have h0 : i = 0 := by omega
    subst h0
    exact ⟨[], rfl, rfl⟩
  | succ k ih =>
    intro i hi
    obtain ⟨l, hlen, hval⟩ := ih (i / 2) (by omega)
    refine ⟨l ++ [decide (i % 2 = 1)], by simp [hlen], ?_⟩
    rw [bits_val_append_bit, hval]
    rcases Nat.mod_two_eq_zero_or_one i with h2 | h2
    · rw [h2]
      simp
      omega
    · rw [h2]
      simp
      omega

lemma countP_zero_replicate (n : Nat) :
    (List.replicate n (0 : Int)).countP (fun x => x == 0) = n := by
  induction n with
  | zero => rfl
  | succ n ih =>
    rw [List.replicate_succ, List.countP_cons, ih]
    simp

/-- Writing a nonzero value into a zero slot removes exactly one zero. -/
lemma countP_zero_set (v : List Int) (i : Nat) (a : Int) (hi : i < v.length)
    (hv : v.getD i 0 = 0) (ha : a ≠ 0) :
    (v.set i a).countP (fun x => x == 0) + 1 = v.countP (fun x => x == 0) := by
  have hcs := countP_set (fun x => x == 0) v i a hi
  have hvi : v[i] = 0 := by
    rw [← List.getD_eq_getElem v 0 hi]
    exact hv
  have ha' : (a == 0) = false := beq_eq_false_iff_ne.mpr ha
  rw [hvi, ha'] at hcs
  simp only [beq_self_eq_true, if_true, Bool.false_eq_true, if_false] at hcs
  omega

/-- A successful phase consumes exactly `nz` zero slots. -/
lemma fill_loop_zeros (nbits : Nat) (val : Int) (hval : 0 < val) :
    ∀ (fuel : Nat) (v : List Int) (s : List Bool) (nz : Nat) (v' : List Int)
      (s' : List Bool),
      2 ^ nbits ≤ v.length →
      fill_loop nbits val fuel v s nz = some (v', s') →
      v'.countP (fun x => x == 0) + nz = v.countP (fun x => x == 0) := by
  intro fuel
  induction fuel with
  | zero => intro v s nz v' s' _ h; simp [fill_loop] at h
  | succ fuel ih =>
    intro v s nz v' s' hlen h
    cases nz with
    | zero =>
      rw [fill_loop] at h
      simp only [Option.some.injEq, Prod.mk.injEq] at h
      obtain ⟨h1, _⟩ := h
      subst h1
      omega
    | succ nz =>
      rw [fill_loop] at h
      cases hgb : get_bits nbits s with
      | none => rw [hgb] at h; simp at h
      | some is1 =>
        obtain ⟨index, s1⟩ := is1
        simp only [hgb] at h
        by_cases hz : v.getD index 0 ≠ 0
        · rw [if_pos hz] at h
          exact ih v s1 (nz + 1) v' s' hlen h
        · rw [if_neg hz] at h
          push_neg at hz
          cases hgb2 : get_bits 1 s1 with
          | none => rw [hgb2] at h; simp at h
          | some gs2 =>
            obtain ⟨sgn, s2⟩ := gs2
            simp only [hgb2] at h
            have hidx : index < v.length := by
              have := (get_bits_some nbits s index s1 hgb).1
              omega
            have hcs := countP_zero_set v index (if sgn = 1 then val else -val)
              hidx hz (by split <;> omega)
            have hih := ih (v.set index (if sgn = 1 then val else -val)) s2 nz v' s'
              (by simpa using hlen) h
            omega

/-- A positive zero count yields a zero slot. -/
lemma exists_zero_getD (v : List Int) (h : 0 < v.countP (fun x => x == 0)) :
    ∃ i, i < v.length ∧ v.getD i 0 = 0 := by
  rw [List.countP_pos] at h
  obtain ⟨a, ha, hpa⟩ := h
  obtain ⟨i, hi, hgi⟩ := List.getElem_of_mem ha
  refine ⟨i, hi, ?_⟩
  rw [List.getD_eq_getElem v 0 hi, hgi]
  simpa using hpa

/-- `get_bits` on a stream whose prefix has exactly the requested
    length: it returns the prefix's value and the rest. -/
lemma get_bits_exact (k : Nat) (a rest : List Bool) (hlen : a.length = k) :
    get_bits k (a ++ rest) = some (bits_val a, rest) := by
  unfold get_bits
  rw [if_pos (by rw [List.length_append]; omega)]
  subst hlen
  rw [List.take_left, List.drop_left]

/-- From any state with at least `nz` zero slots, some continuation of
    the bit stream completes the phase (and consumes all of it). -/
lemma fill_loop_complete (nbits : Nat) (val : Int) (hval : 0 < val) :
    ∀ (nz : Nat) (v : List Int), v.length = 2 ^ nbits →
      nz ≤ v.countP (fun x => x == 0) →
      ∃ t v', fill_loop nbits val (t.length + 1) v t nz = some (v', []) := by
  intro nz
  induction nz with
  | zero =>
    intro v _ _
    exact ⟨[], v, by rw [fill_loop]⟩
  | succ nz ih =>
    intro v hlen hcount
    obtain ⟨i, hi, hzero⟩ := exists_zero_getD v (by omega)
    obtain ⟨bl, hbl_len, hbl_val⟩ := exists_bits nbits i (by rw [← hlen]; exact hi)
    have hset := countP_zero_set v i val hi hzero (by omega)
    obtain ⟨t, v', ht⟩ := ih (v.set i val) (by simpa using hlen) (by omega)
    refine ⟨bl ++ true :: t, v', ?_⟩
    rw [fill_loop]
    have hgb : get_bits nbits (bl ++ true :: t) = some (i, true :: t) := by
      rw [get_bits_exact nbits bl (true :: t) hbl_len, hbl_val]
    simp only [hgb]
    rw [if_neg (by simp only [ne_eq, not_not]; exact hzero)]
    have hgb2 : get_bits 1 (true :: t) = some (1, t) := by
      unfold get_bits
      rw [if_pos (by simp)]
      rfl
    simp only [hgb2]
    rw [show (bl ++ true :: t).length = t.length + 1 + nbits from by
      simp only [List.length_append, List.length_cons, hbl_len]; omega]
    exact fill_loop_fuel_mono nbits val (t.length + 1) nbits (v.set i val) t nz (v', []) ht

/-- If the remaining stream is shorter than one index draw, a suitable
    extension completes the phase. -/
lemma fill_loop_straddle (nbits : Nat) (val : Int) (hval : 0 < val) :
    ∀ (s : List Bool) (v : List Int) (nz : Nat),
      v.length = 2 ^ nbits → nz ≤ v.countP (fun x => x == 0) →
      s.length < nbits →
      ∃ t v' s', fill_loop nbits val (s.length + t.length + 1) v (s ++ t) nz
        = some (v', s') := by
  intro s v nz hlen hcount hshort
  cases nz with
  | zero => exact ⟨[], v, s ++ [], by rw [fill_loop]⟩
  | succ nz =>
    have ht1len : (List.replicate (nbits - s.length) false).length = nbits - s.length :=
      List.length_replicate _ _
    have hst1_len : (s ++ List.replicate (nbits - s.length) false).length = nbits := by
      rw [List.length_append, ht1len]
      omega
    have hidx_lt : bits_val (s ++ List.replicate (nbits - s.length) false) < v.length := by
      have hbv := bits_val_lt (s ++ List.replicate (nbits - s.length) false)
      rw [hst1_len] at hbv
      rw [hlen]
      exact hbv
    by_cases hz : v.getD (bits_val (s ++ List.replicate (nbits - s.length) false)) 0 = 0
    · have hset := countP_zero_set v
        (bits_val (s ++ List.replicate (nbits - s.length) false)) val hidx_lt hz (by omega)
      obtain ⟨tp, v', htp⟩ := fill_loop_complete nbits val hval nz
        (v.set (bits_val (s ++ List.replicate (nbits - s.length) false)) val)
        (by simpa using hlen) (by omega)
      refine ⟨List.replicate (nbits - s.length) false ++ true :: tp, v', [], ?_⟩
      rw [fill_loop]
      rw [show s ++ (List.replicate (nbits - s.length) false ++ true :: tp)
          = (s ++ List.replicate (nbits - s.length) false) ++ true :: tp
        from (List.append_assoc s _ _).symm]
      simp only [get_bits_exact nbits (s ++ List.replicate (nbits - s.length) false)
        (true :: tp) hst1_len]
      rw [if_neg (by simp only [ne_eq, not_not]; exact hz)]
      have hgb2 : get_bits 1 (true :: tp) = some (1, tp) := by
        unfold get_bits
        rw [if_pos (by simp)]
        rfl
      simp only [hgb2]
      rw [show s.length + (List.replicate (nbits - s.length) false ++ true :: tp).length
          = tp.length + 1 + nbits from by
        simp only [List.length_append, List.length_cons, ht1len]; omega]
      exact fill_loop_fuel_mono nbits val (tp.length + 1) nbits
        (v.set (bits_val (s ++ List.replicate (nbits - s.length) false)) val) tp nz
        (v', []) htp
    · obtain ⟨tp, v', htp⟩ := fill_loop_complete nbits val hval (nz + 1) v hlen hcount
      refine ⟨List.replicate (nbits - s.length) false ++ tp, v', [], ?_⟩
      rw [fill_loop]
      rw [show s ++ (List.replicate (nbits - s.length) false ++ tp)
          = (s ++ List.replicate (nbits - s.length) false) ++ tp
        from (List.append_assoc s _ _).symm]
      simp only [get_bits_exact nbits (s ++ List.replicate (nbits - s.length) false)
        tp hst1_len]
      rw [if_pos hz]
      rw [show s.length + (List.replicate (nbits - s.length) false ++ tp).length
          = tp.length + 1 + (nbits - 1) from by
        simp only [List.length_append, ht1len]; omega]
      exact fill_loop_fuel_mono nbits val (tp.length + 1) (nbits - 1) v tp (nz + 1)
        (v', []) htp

/-- A failing phase is always rescued by extending the stream: with
    `n_bits ≥ 1` the fuel `stream length + 1` cannot run out before the
    stream does, so the only cause of `none` is a failing `get_bits`. -/
lemma fill_loop_rescue (nbits : Nat) (val : Int) (hval : 0 < val) (hnb : 1 ≤ nbits) :
    ∀ (L : Nat) (s : List Bool) (v : List Int) (nz : Nat), s.length ≤ L →
      v.length = 2 ^ nbits → nz ≤ v.countP (fun x => x == 0) →
      fill_loop nbits val (s.length + 1) v s nz = none →
      ∃ t v' s', fill_loop nbits val (s.length + t.length + 1) v (s ++ t) nz
        = some (v', s') := by
  intro L
  induction L with
  | zero =>
    intro s v nz hsL hlen hcount _hfail
    have hs : s = [] := List.length_eq_zero.mp (by omega)
    subst hs
    exact fill_loop_straddle nbits val hval [] v nz hlen hcount (by simpa using hnb)
  | succ L ih =>
    intro s v nz hsL hlen hcount hfail
    cases nz with
    | zero =>
      rw [fill_loop] at hfail
      simp at hfail
    | succ nz =>
      rw [fill_loop] at hfail
      cases hgb : get_bits nbits s with
      | none =>
        have hlt : s.length < nbits := by
          unfold get_bits at hgb
          by_contra hcon
          rw [if_pos (by omega)] at hgb
          simp at hgb
        exact fill_loop_straddle nbits val hval s v (nz + 1) hlen hcount hlt
      | some is1 =>
        obtain ⟨index, s1⟩ := is1
        simp only [hgb] at hfail
        obtain ⟨hidx_lt, hs1, hk⟩ := get_bits_some nbits s index s1 hgb
        have hs1len : s1.length = s.length - nbits := by rw [hs1]; simp
        by_cases hz : v.getD index 0 ≠ 0
        · rw [if_pos hz] at hfail
          have hdown : fill_loop nbits val (s1.length + 1) v s1 (nz + 1) = none := by
            cases hd : fill_loop nbits val (s1.length + 1) v s1 (nz + 1) with
            | none => rfl
            | some r =>
              have hm := fill_loop_fuel_mono nbits val (s1.length + 1)
                (s.length - (s1.length + 1)) v s1 (nz + 1) r hd
              rw [show s1.length + 1 + (s.length - (s1.length + 1)) = s.length
                from by omega] at hm
              rw [hm] at hfail
              simp at hfail
          obtain ⟨t, v', s', ht⟩ := ih s1 v (nz + 1) (by omega) hlen hcount hdown
          refine ⟨t, v', s', ?_⟩
          rw [fill_loop]
          simp only [get_bits_append nbits s t index s1 hgb]
          rw [if_pos hz]
          rw [show s.length + t.length = s1.length + t.length + 1 + (nbits - 1)
            from by omega]
          exact fill_loop_fuel_mono nbits val (s1.length + t.length + 1) (nbits - 1)
            v (s1 ++ t) (nz + 1) (v', s') ht
        · rw [if_neg hz] at hfail
          push_neg at hz
          have hidxv : index < v.length := by omega
          cases hgb2 : get_bits 1 s1 with
          | none =>
            have hs1e : s1 = [] := by
              unfold get_bits at hgb2
              by_contra hcon
              have hone : 1 ≤ s1.length := by
                cases s1 with
                | nil => exact absurd rfl hcon
                | cons a l => simp
              rw [if_pos hone] at hgb2
              simp at hgb2
            subst hs1e
            have hset := countP_zero_set v index val hidxv hz (by omega)
            obtain ⟨tp, v', htp⟩ := fill_loop_complete nbits val hval nz
              (v.set index val) (by simpa using hlen) (by omega)
            refine ⟨true :: tp, v', [], ?_⟩
            rw [fill_loop]
            simp only [get_bits_append nbits s (true :: tp) index [] hgb]
            rw [if_neg (by simp only [ne_eq, not_not]; exact hz)]
            have hgb2' : get_bits 1 ([] ++ true :: tp) = some (1, tp) := by
              unfold get_bits
              rw [if_pos (by simp)]
              rfl
            simp only [hgb2', if_true]
            rw [show s.length + (true :: tp).length = tp.length + 1 + s.length
              from by simp only [List.length_cons]; omega]
            exact fill_loop_fuel_mono nbits val (tp.length + 1) s.length
              (v.set index val) tp nz (v', []) htp
          | some gs2 =>
            obtain ⟨sgn, s2⟩ := gs2
            simp only [hgb2] at hfail
            obtain ⟨_, hs2eq, hk1⟩ := get_bits_some 1 s1 sgn s2 hgb2
            have hs2len : s2.length = s1.length - 1 := by rw [hs2eq]; simp
            have hset := countP_zero_set v index (if sgn = 1 then val else -val)
              hidxv hz (by split <;> omega)
            have hdown : fill_loop nbits val (s2.length + 1)
                (v.set index (if sgn = 1 then val else -val)) s2 nz = none := by
              cases hd : fill_loop nbits val (s2.length + 1)
                  (v.set index (if sgn = 1 then val else -val)) s2 nz with
              | none => rfl
              | some r =>
                have hm := fill_loop_fuel_mono nbits val (s2.length + 1)
                  (s.length - (s2.length + 1))
                  (v.set index (if sgn = 1 then val else -val)) s2 nz r hd
                rw [show s2.length + 1 + (s.length - (s2.length + 1)) = s.length
                  from by omega] at hm
                rw [hm] at hfail
                simp at hfail
            obtain ⟨t, v', s', ht⟩ := ih s2
              (v.set index (if sgn = 1 then val else -val)) nz
              (by omega) (by simpa using hlen) (by omega) hdown
            refine ⟨t, v', s', ?_⟩
            rw [fill_loop]
            simp only [get_bits_append nbits s t index s1 hgb]
            rw [if_neg (by simp only [ne_eq, not_not]; exact hz)]
            simp only [get_bits_append 1 s1 t sgn s2 hgb2]
            rw [show s.length + t.length = s2.length + t.length + 1 + nbits
              from by omega]
            exact fill_loop_fuel_mono nbits val (s2.length + t.length + 1) nbits
              (v.set index (if sgn = 1 then val else -val)) (s2 ++ t) nz (v', s') ht

/-- `create_vector_from_seed` fails only when the bit spender cannot
    supply the requested bits: every failing stream has an extension on
    which the run succeeds (given `n_bits ≥ 1` and enough slots for the
    rejection sampling to finish). -/
lemma create_vector_rescue (P : BlissParamSet) (s : List Bool)
    (hn : P.n = 2 ^ P.n_bits) (hnb : 1 ≤ P.n_bits)
    (hcap : P.non_zero1 + P.non_zero2 ≤ P.n)
    (hfail : create_vector_from_seed P s = none) :
    ∃ u v, create_vector_from_seed P (s ++ u) = some v := by
  have hrlen : (List.replicate P.n (0 : Int)).length = 2 ^ P.n_bits := by
    simp [hn]
  have hrcount : (List.replicate P.n (0 : Int)).countP (fun x => x == 0) = P.n :=
    countP_zero_replicate P.n
  unfold create_vector_from_seed at hfail
  cases h1 : fill_loop P.n_bits 1 (s.length + 1) (List.replicate P.n 0) s P.non_zero1 with
  | none =>
    obtain ⟨t, v1, r1, ht⟩ := fill_loop_rescue P.n_bits 1 (by norm_num) hnb s.length s
      (List.replicate P.n 0) P.non_zero1 (le_refl _) hrlen (by omega) h1
    have hv1len : v1.length = 2 ^ P.n_bits := by
      obtain ⟨hl, _, _, _⟩ := fill_loop_spec P.n_bits 1 (by norm_num)
        (s.length + t.length + 1) (List.replicate P.n 0) (s ++ t) P.non_zero1 v1 r1
        (by omega) ht
      omega
    have hv1count : P.non_zero2 ≤ v1.countP (fun x => x == 0) := by
      have hz := fill_loop_zeros P.n_bits 1 (by norm_num)
        (s.length + t.length + 1) (List.replicate P.n 0) (s ++ t) P.non_zero1 v1 r1
        (by omega) ht
      omega
    cases h2 : fill_loop P.n_bits 2 (r1.length + 1) v1 r1 P.non_zero2 with
    | some p2 =>
      obtain ⟨v2, r2⟩ := p2
      refine ⟨t, v2, ?_⟩
      unfold create_vector_from_seed
      rw [show (s ++ t).length + 1 = s.length + t.length + 1 from by simp]
      simp only [ht, h2]
    | none =>
      obtain ⟨u2, v2, r2, hu2⟩ := fill_loop_rescue P.n_bits 2 (by norm_num) hnb
        r1.length r1 v1 P.non_zero2 (le_refl _) hv1len hv1count h2
      refine ⟨t ++ u2, v2, ?_⟩
      unfold create_vector_from_seed
      have ht2 : fill_loop P.n_bits 1 ((s ++ (t ++ u2)).length + 1)
          (List.replicate P.n 0) (s ++ (t ++ u2)) P.non_zero1
          = some (v1, r1 ++ u2) := by
        have ha := fill_loop_append P.n_bits 1 (s.length + t.length + 1)
          (List.replicate P.n 0) (s ++ t) P.non_zero1 v1 r1 u2 ht
        have hm := fill_loop_fuel_mono P.n_bits 1 (s.length + t.length + 1) u2.length
          (List.replicate P.n 0) ((s ++ t) ++ u2) P.non_zero1 (v1, r1 ++ u2) ha
        rw [List.append_assoc] at hm
        rw [show (s ++ (t ++ u2)).length + 1 = s.length + t.length + 1 + u2.length
          from by simp; omega]
        exact hm
      simp only [ht2]
      rw [show (r1 ++ u2).length + 1 = r1.length + u2.length + 1 from by simp]
      simp only [hu2]
  | some p1 =>
    obtain ⟨v1, r1⟩ := p1
    simp only [h1] at hfail
    have hv1len : v1.length = 2 ^ P.n_bits := by
      obtain ⟨hl, _, _, _⟩ := fill_loop_spec P.n_bits 1 (by norm_num)
        (s.length + 1) (List.replicate P.n 0) s P.non_zero1 v1 r1 (by omega) h1
      omega
    have hv1count : P.non_zero2 ≤ v1.countP (fun x => x == 0) := by
      have hz := fill_loop_zeros P.n_bits 1 (by norm_num)
        (s.length + 1) (List.replicate P.n 0) s P.non_zero1 v1 r1 (by omega) h1
      omega
    cases h2 : fill_loop P.n_bits 2 (r1.length + 1) v1 r1 P.non_zero2 with
    | some p2 =>
      rw [h2] at hfail
      simp at hfail
    | none =>
      obtain ⟨u2, v2, r2, hu2⟩ := fill_loop_rescue P.n_bits 2 (by norm_num) hnb
        r1.length r1 v1 P.non_zero2 (le_refl _) hv1len hv1count h2
      refine ⟨u2, v2, ?_⟩
      unfold create_vector_from_seed
      have h1' : fill_loop P.n_bits 1 ((s ++ u2).length + 1) (List.replicate P.n 0)
          (s ++ u2) P.non_zero1 = some (v1, r1 ++ u2) := by
        have ha := fill_loop_append P.n_bits 1 (s.length + 1)
          (List.replicate P.n 0) s P.non_zero1 v1 r1 u2 h1
        have hm := fill_loop_fuel_mono P.n_bits 1 (s.length + 1) u2.length
          (List.replicate P.n 0) (s ++ u2) P.non_zero1 (v1, r1 ++ u2) ha
        rw [show (s ++ u2).length + 1 = s.length + 1 + u2.length from by simp; omega]
        exact hm
      simp only [h1']
      rw [show (r1 ++ u2).length + 1 = r1.length + u2.length + 1 from by simp]
      simp only [hu2]

/-- Everything a successful `create_vector_from_seed` run guarantees:
    length, the exact sparsity profile, the value range, and insensitivity
    to extra bits beyond the consumed prefix. -/
lemma create_vector_facts (P : BlissParamSet) (s t : List Bool)
    (v : List Int) (hn : P.n = 2 ^ P.n_bits)
    (h : create_vector_from_seed P s = some v) :
    v.length = P.n ∧
    countPM v 1 = P.non_zero1 ∧
    countPM v 2 = P.non_zero2 ∧
    (∀ x ∈ v, x = 0 ∨ x = 1 ∨ x = -1 ∨ x = 2 ∨ x = -2) ∧
    create_vector_from_seed P (s ++ t) = some v := by
  unfold create_vector_from_seed at h
  cases h1 : fill_loop P.n_bits 1 (s.length + 1) (List.replicate P.n 0) s P.non_zero1 with
  | none => rw [h1] at h; simp at h
  | some p1 =>
    obtain ⟨v1, r1⟩ := p1
    simp only [h1] at h
    cases h2 : fill_loop P.n_bits 2 (r1.length + 1) v1 r1 P.non_zero2 with
    | none => rw [h2] at h; simp at h
    | some p2 =>
      obtain ⟨v2, r2⟩ := p2
      simp only [h2, Option.some.injEq] at h
      subst h
      have hrep : (List.replicate P.n (0 : Int)).length = P.n := by simp
      obtain ⟨l1, c1, o1, m1⟩ := fill_loop_spec P.n_bits 1 (by norm_num)
        (s.length + 1) (List.replicate P.n 0) s P.non_zero1 v1 r1 (by omega) h1
      obtain ⟨l2, c2, o2, m2⟩ := fill_loop_spec P.n_bits 2 (by norm_num)
        (r1.length + 1) v1 r1 P.non_zero2 v2 r2 (by omega) h2
      have hlen : v2.length = P.n := by omega
      have hc1 : countPM v2 1 = P.non_zero1 := by
        rw [o2 1 (by norm_num) (by norm_num), c1, countPM_replicate P.n 1 (by norm_num)]
        omega
      have hc2 : countPM v2 2 = P.non_zero2 := by
        rw [c2, o1 2 (by norm_num) (by norm_num), countPM_replicate P.n 2 (by norm_num)]
        omega
      have hmem : ∀ x ∈ v2, x = 0 ∨ x = 1 ∨ x = -1 ∨ x = 2 ∨ x = -2 := by
        intro x hx
        rcases m2 x hx with hx1 | hx2 | hx3
        · rcases m1 x hx1 with hy1 | hy2 | hy3
          · exact Or.inl (List.eq_of_mem_replicate hy1)
          · exact Or.inr (Or.inl hy2)
          · exact Or.inr (Or.inr (Or.inl hy3))
        · exact Or.inr (Or.inr (Or.inr (Or.inl hx2)))
        · exact Or.inr (Or.inr (Or.inr (Or.inr hx3)))
      refine ⟨hlen, hc1, hc2, hmem, ?_⟩
      unfold create_vector_from_seed
      have ha1 : fill_loop P.n_bits 1 ((s ++ t).length + 1) (List.replicate P.n 0)
          (s ++ t) P.non_zero1 = some (v1, r1 ++ t) := by
        have hb1 := fill_loop_append P.n_bits 1 (s.length + 1)
          (List.replicate P.n 0) s P.non_zero1 v1 r1 t h1
        have hb2 := fill_loop_fuel_mono P.n_bits 1 (s.length + 1) t.length
          (List.replicate P.n 0) (s ++ t) P.non_zero1 (v1, r1 ++ t) hb1
        have hle : (s ++ t).length + 1 = s.length + 1 + t.length := by
          rw [List.length_append]; omega
        rw [hle]
        exact hb2
      simp only [ha1]
      have ha2 : fill_loop P.n_bits 2 ((r1 ++ t).length + 1) v1 (r1 ++ t)
          P.non_zero2 = some (v2, r2 ++ t) := by
        have hb1 := fill_loop_append P.n_bits 2 (r1.length + 1) v1 r1
          P.non_zero2 v2 r2 t h2
        have hb2 := fill_loop_fuel_mono P.n_bits 2 (r1.length + 1) t.length
          v1 (r1 ++ t) P.non_zero2 (v2, r2 ++ t) hb1
        have hle : (r1 ++ t).length + 1 = r1.length + 1 + t.length := by
          rw [List.length_append]; omega
        rw [hle]
        exact hb2
      simp only [ha2]

/-- C3: whenever `create_vector_from_seed` returns a vector, it has length
    `n` with exactly `non_zero1` entries `±1`, exactly `non_zero2` entries
    `±2` and all other entries zero, and a successful run is insensitive
    to extra bits beyond the ones it consumed; and it fails only when the
    MGF1 bit spender cannot supply the requested bits: given `n_bits ≥ 1`
    (all deployed sets have `n_bits ∈ {9, 10}`) and enough slots, every
    failing stream is an under-supply, rescued by extending the stream. -/
theorem create_vector_from_seed_spec (P : BlissParamSet) (s t : List Bool)
    (hn : P.n = 2 ^ P.n_bits) :
    (∀ v, create_vector_from_seed P s = some v →
      v.length = P.n ∧
      countPM v 1 = P.non_zero1 ∧
      countPM v 2 = P.non_zero2 ∧
      (∀ x ∈ v, x = 0 ∨ x = 1 ∨ x = -1 ∨ x = 2 ∨ x = -2) ∧
      create_vector_from_seed P (s ++ t) = some v) ∧
    (1 ≤ P.n_bits → P.non_zero1 + P.non_zero2 ≤ P.n →
      create_vector_from_seed P s = none →
      ∃ u v, create_vector_from_seed P (s ++ u) = some v) := by
  constructor
  · intro v h
    exact create_vector_facts P s t v hn h
  · intro hnb hcap hfail
    exact create_vector_rescue P s hn hnb hcap hfail

/-- Witness for C3: `n_bits = 1`, `n = 2`, one `±1` and no `±2`.  The
    stream `[0, 1]` places `+1` at index 0; the empty stream fails and is
    rescued by an extension. -/
theorem create_vector_from_seed_spec_witness :
    (demoParamsN2.n = 2 ^ demoParamsN2.n_bits ∧
        create_vector_from_seed demoParamsN2 [false, true] = some [1, 0]) ∧
      ([1, 0] : List Int).length = demoParamsN2.n ∧
      countPM [1, 0] 1 = demoParamsN2.non_zero1 ∧
      countPM [1, 0] 2 = demoParamsN2.non_zero2 ∧
      create_vector_from_seed demoParamsN2 ([false, true] ++ [true]) = some [1, 0] ∧
      (create_vector_from_seed demoParamsN2 [] = none ∧
        ∃ u v, create_vector_from_seed demoParamsN2 ([] ++ u) = some v) := by
  have hcv : create_vector_from_seed demoParamsN2 [false, true] = some [1, 0] := by decide
  have hfacts := (create_vector_from_seed_spec demoParamsN2 [false, true] [true]
    (by decide)).1 [1, 0] hcv
  have hfail : create_vector_from_seed demoParamsN2 [] = none := by decide
  have hresc := (create_vector_from_seed_spec demoParamsN2 [] [] (by decide)).2
    (by decide) (by decide) hfail
  exact ⟨⟨by decide, hcv⟩, hfacts.1, hfacts.2.1, hfacts.2.2.1, hfacts.2.2.2.2,
    hfail, hresc⟩

/-! ## Key generation: trial bound (C5) and the public-key relation (C1) -/

/-- `create_secret` advances the shared trial counter by at most its fuel. -/
lemma create_secret_go_trials (P : BlissParamSet)
    (streams : Nat → Option (List Bool × List Bool)) :
    ∀ fuel trials, (create_secret_go P streams trials fuel).2 ≤ trials + fuel := by
  intro fuel
  induction fuel with
  | zero => intro trials; exact Nat.le_refl trials
  | succ fuel ih =>
    intro trials
    rw [create_secret_go]
    split
    · show trials + 1 ≤ trials + (fuel + 1); omega
    · split
      · show trials + 1 ≤ trials + (fuel + 1); omega
      · split
        · show trials + 1 ≤ trials + (fuel + 1); omega
        · split
          · show trials + 1 ≤ trials + (fuel + 1); omega
          · have hih := ih (trials + 1)
            omega

/-- Inversion of a successful `create_secret` run: the accepting trial
    index, its streams, the two sampled vectors and the norm test. -/
lemma create_secret_go_some (P : BlissParamSet)
    (streams : Nat → Option (List Bool × List Bool)) :
    ∀ fuel trials f s2 t,
      create_secret_go P streams trials fuel = (some (f, s2), t) →
      trials < t ∧ t ≤ trials + fuel ∧
      ∃ b1 b2 g, streams (t - 1) = some (b1, b2) ∧
        create_vector_from_seed P b1 = some f ∧
        create_vector_from_seed P b2 = some g ∧
        s2 = two_g_plus_1 g ∧
        nks_norm f s2 P.n P.kappa < P.nks_max := by
  intro fuel
  induction fuel with
  | zero => intro trials f s2 t h; simp [create_secret_go] at h
  | succ fuel ih =>
    intro trials f s2 t h
    rw [create_secret_go] at h
    cases hs : streams trials with
    | none => rw [hs] at h; simp at h
    | some bb =>
      obtain ⟨b1, b2⟩ := bb
      simp only [hs] at h
      cases hc1 : create_vector_from_seed P b1 with
      | none => rw [hc1] at h; simp at h
      | some f' =>
        simp only [hc1] at h
        cases hc2 : create_vector_from_seed P b2 with
        | none => rw [hc2] at h; simp at h
        | some g =>
          simp only [hc2] at h
          by_cases hnk : nks_norm f' (two_g_plus_1 g) P.n P.kappa < P.nks_max
          · rw [if_pos hnk] at h
            simp only [Prod.mk.injEq, Option.some.injEq] at h
            obtain ⟨⟨hf, hs2⟩, ht⟩ := h
            subst hf; subst hs2; subst ht
            refine ⟨by omega, by omega, b1, b2, g, ?_, hc1, hc2, rfl, hnk⟩
            have : trials + 1 - 1 = trials := by omega
            rw [this, hs]
          · rw [if_neg hnk] at h
            obtain ⟨h1, h2, hex⟩ := ih (trials + 1) f s2 t h
            exact ⟨by omega, by omega, hex⟩

/-- The key-generation driver never runs the trial counter past
    `SECRET_KEY_TRIALS_MAX`. -/
lemma keygen_go_trials (P : BlissParamSet) (fft fftInv : List Nat → List Nat)
    (streams : Nat → Option (List Bool × List Bool)) :
    ∀ ofuel trials, trials ≤ SECRET_KEY_TRIALS_MAX →
      (keygen_go P fft fftInv streams trials ofuel).2 ≤ SECRET_KEY_TRIALS_MAX := by
  intro ofuel
  induction ofuel with
  | zero => intro trials h; exact h
  | succ ofuel ih =>
    intro trials htr
    rw [keygen_go]
    split
    · rename_i t heq
      have hbound := create_secret_go_trials P streams (SECRET_KEY_TRIALS_MAX - trials) trials
      rw [heq] at hbound
      have hb : t ≤ trials + (SECRET_KEY_TRIALS_MAX - trials) := hbound
      show t ≤ SECRET_KEY_TRIALS_MAX
      omega
    · rename_i f s2 t heq
      have hbound := create_secret_go_trials P streams (SECRET_KEY_TRIALS_MAX - trials) trials
      rw [heq] at hbound
      have hb : t ≤ trials + (SECRET_KEY_TRIALS_MAX - trials) := hbound
      split
      · show t ≤ SECRET_KEY_TRIALS_MAX
        omega
      · split
        · exact ih t (by omega)
        · show t ≤ SECRET_KEY_TRIALS_MAX
          omega

/-- C5: key generation performs at most `SECRET_KEY_TRIALS_MAX = 50` trials
    in total (norm rejections and invertibility rejections share the
    counter), and if none of the 50 candidate trials yields a secret with
    `Nk(S) < nks_max` whose lifted `s1` has a zero-free NTT image, it
    returns failure. -/
theorem keygen_trials_bound (P : BlissParamSet) (fft fftInv : List Nat → List Nat)
    (streams : Nat → Option (List Bool × List Bool)) :
    (bliss_private_key_gen P fft fftInv streams).2 ≤ SECRET_KEY_TRIALS_MAX ∧
    ((∀ i, i < SECRET_KEY_TRIALS_MAX → good_trial P fft streams i = false) →
      (bliss_private_key_gen P fft fftInv streams).1 = none) := by
  constructor
  · exact keygen_go_trials P fft fftInv streams SECRET_KEY_TRIALS_MAX 0 (by norm_num)
  · intro hgood
    suffices h : ∀ ofuel trials, trials ≤ SECRET_KEY_TRIALS_MAX →
        (keygen_go P fft fftInv streams trials ofuel).1 = none by
      exact h SECRET_KEY_TRIALS_MAX 0 (by norm_num)
    intro ofuel
    induction ofuel with
    | zero => intro trials _; rfl
    | succ ofuel ih =>
      intro trials htr
      rw [keygen_go]
      split
      · rfl
      · rename_i f s2 t heq
        obtain ⟨ht1, ht2, b1, b2, g, hstream, hcv1, hcv2, hs2, hnks⟩ :=
          create_secret_go_some P streams (SECRET_KEY_TRIALS_MAX - trials)
            trials f s2 t heq
        have htb : t ≤ SECRET_KEY_TRIALS_MAX := by omega
        have hti : t - 1 < SECRET_KEY_TRIALS_MAX := by omega
        have hgt := hgood (t - 1) hti
        rw [good_trial, hstream] at hgt
        simp only [hcv1, hcv2] at hgt
        rw [← hs2] at hgt
        have hd1 : decide (nks_norm f s2 P.n P.kappa < P.nks_max) = true :=
          decide_eq_true hnks
        rw [hd1, Bool.true_and] at hgt
        have hmem : 0 ∈ fft (lift1 f P.q) := by
          have hgt2 : decide (0 ∈ fft (lift1 f P.q)) = true := by
            cases hdec : decide (0 ∈ fft (lift1 f P.q)) with
            | true => rfl
            | false => rw [hdec] at hgt; simp at hgt
          exact of_decide_eq_true hgt2
        have hdp : derive_pub P.q (fft (lift1 f P.q)) (fft (lift2 s2 P.q)) = none := by
          unfold derive_pub
          rw [if_pos hmem]
        rw [hdp]
        show (if t < SECRET_KEY_TRIALS_MAX then keygen_go P fft fftInv streams t ofuel
          else (none, t)).1 = none
        split
        · exact ih t htb
        · rfl

/-- Witness for C5: with every RNG draw failing, no trial is good and key
    generation fails within the trial bound. -/
theorem keygen_trials_bound_witness :
    (bliss_private_key_gen demoParamsN2 id id (fun _ => none)).2 ≤ SECRET_KEY_TRIALS_MAX ∧
      (bliss_private_key_gen demoParamsN2 id id (fun _ => none)).1 = none := by
  have h := keygen_trials_bound demoParamsN2 id id (fun _ => none)
  exact ⟨h.1, h.2 (by decide)⟩

/-- Inversion of a successful key generation: the key's secrets come from
    the sampler, and the FFT-domain public polynomial `A` was produced by
    `derive_pub` from the lifted secrets. -/
lemma keygen_go_some (P : BlissParamSet) (fft fftInv : List Nat → List Nat)
    (streams : Nat → Option (List Bool × List Bool)) :
    ∀ ofuel trials K A t,
      keygen_go P fft fftInv streams trials ofuel = (some (K, A), t) →
      K.set = P ∧
      (∃ b1 b2 g, create_vector_from_seed P b1 = some K.s1 ∧
        create_vector_from_seed P b2 = some g ∧ K.s2 = two_g_plus_1 g) ∧
      derive_pub P.q (fft (lift1 K.s1 P.q)) (fft (lift2 K.s2 P.q)) = some A ∧
      K.a = fftInv A := by
  intro ofuel
  induction ofuel with
  | zero => intro trials K A t h; simp [keygen_go] at h
  | succ ofuel ih =>
    intro trials K A t h
    rw [keygen_go] at h
    split at h
    · simp at h
    · rename_i f s2 t' heq
      split at h
      · rename_i A' heqd
        simp only [Prod.mk.injEq, Option.some.injEq] at h
        obtain ⟨⟨hK, hA⟩, ht⟩ := h
        subst hK
        subst hA
        obtain ⟨_, _, b1, b2, g, _, hcv1, hcv2, hs2, _⟩ :=
          create_secret_go_some P streams _ trials f s2 t' heq
        exact ⟨rfl, ⟨b1, b2, g, hcv1, hcv2, hs2⟩, heqd, rfl⟩
      · rename_i heqd
        split at h
        · exact ih t' K A t h
        · simp at h

lemma lift1_length (s : List Int) (q : Nat) : (lift1 s q).length = s.length := by
  simp [lift1]

lemma lift2_length (s : List Int) (q : Nat) : (lift2 s q).length = s.length := by
  simp [lift2]

lemma two_g_length (g : List Int) : (two_g_plus_1 g).length = g.length := by
  simp [two_g_plus_1]

lemma lift1_lt (s : List Int) (q : Nat) (hq : 5 ≤ q)
    (hs : ∀ x ∈ s, -2 ≤ x ∧ x ≤ 2) : ∀ y ∈ lift1 s q, y < q := by
  intro y hy
  rw [lift1, List.mem_map] at hy
  obtain ⟨x, hx, rfl⟩ := hy
  obtain ⟨h1, h2⟩ := hs x hx
  split
  · omega
  · omega

lemma lift2_lt (s : List Int) (q : Nat) (hq : 5 ≤ q)
    (hs : ∀ x ∈ s, -4 ≤ x ∧ x ≤ 5) : ∀ y ∈ lift2 s q, y < q := by
  intro y hy
  rw [lift2, List.mem_map] at hy
  obtain ⟨x, hx, rfl⟩ := hy
  obtain ⟨h1, h2⟩ := hs x hx
  split
  · omega
  · omega

/-- The entries of `2g + 1` lie in `[-4, 5]` when `g` is a sampled sparse
    vector. -/
lemma two_g_bound (g : List Int)
    (hg : ∀ x ∈ g, x = 0 ∨ x = 1 ∨ x = -1 ∨ x = 2 ∨ x = -2) :
    ∀ x ∈ two_g_plus_1 g, -4 ≤ x ∧ x ≤ 5 := by
  intro x hx
  unfold two_g_plus_1 at hx
  rcases List.mem_or_eq_of_mem_set hx with hx1 | hx2
  · rw [List.mem_map] at hx1
    obtain ⟨y, hy, rfl⟩ := hx1
    have hb : -2 ≤ y ∧ y ≤ 2 := by rcases hg y hy with h|h|h|h|h <;> omega
    omega
  · cases g with
    | nil =>
      simp at hx2
      omega
    | cons a tl =>
      have ha := hg a (List.mem_cons_self a tl)
      have hb : -2 ≤ a ∧ a ≤ 2 := by rcases ha with h|h|h|h|h <;> omega
      simp only [List.map_cons, List.getD_cons_zero] at hx2
      omega

/-- Length and value range of a sampled sparse vector. -/
lemma create_vector_basic (P : BlissParamSet) (s : List Bool) (v : List Int)
    (hn : P.n = 2 ^ P.n_bits)
    (h : create_vector_from_seed P s = some v) :
    v.length = P.n ∧ ∀ x ∈ v, x = 0 ∨ x = 1 ∨ x = -1 ∨ x = 2 ∨ x = -2 := by
  obtain ⟨h1, _, _, h4, _⟩ := create_vector_facts P s [] v hn h
  exact ⟨h1, h4⟩

/-- C1: for every key produced by `bliss_private_key_gen`, the FFT-domain
    public polynomial satisfies `A[i] = (S2[i] * invert(S1[i], q)) mod q`
    where `S1`/`S2` are the FFT images of the mod-q lifts of `s1` and of
    `-s2`; equivalently `S1[i] * A[i] ≡ S2[i] (mod q)` pointwise. -/
theorem pubkey_fft_relation (P : BlissParamSet) (fft fftInv : List Nat → List Nat)
    (streams : Nat → Option (List Bool × List Bool)) (K : BlissKey)
    (A : List Nat) (t : Nat)
    (hprime : P.q.Prime) (hq5 : 5 ≤ P.q) (hq16 : P.q < 65536)
    (hn : P.n = 2 ^ P.n_bits)
    (hfft : ∀ l : List Nat, l.length = P.n → (∀ x ∈ l, x < P.q) →
      (fft l).length = P.n ∧ ∀ x ∈ fft l, x < P.q)
    (hgen : bliss_private_key_gen P fft fftInv streams = (some (K, A), t)) :
    ∀ i, i < P.n →
      (fft (lift2 K.s2 P.q)).getD i 0
          * invert ((fft (lift1 K.s1 P.q)).getD i 0) P.q % P.q
        = A.getD i 0 ∧
      (fft (lift1 K.s1 P.q)).getD i 0 * A.getD i 0 % P.q
        = (fft (lift2 K.s2 P.q)).getD i 0 % P.q := by
  obtain ⟨hKset, ⟨b1, b2, g, hcv1, hcv2, hs2⟩, hdp, hKa⟩ :=
    keygen_go_some P fft fftInv streams SECRET_KEY_TRIALS_MAX 0 K A t hgen
  obtain ⟨hlen1, hmem1⟩ := create_vector_basic P b1 K.s1 hn hcv1
  obtain ⟨hleng, hmemg⟩ := create_vector_basic P b2 g hn hcv2
  have hs1b : ∀ x ∈ K.s1, -2 ≤ x ∧ x ≤ 2 := by
    intro x hx
    rcases hmem1 x hx with h|h|h|h|h <;> omega
  have hs2b : ∀ x ∈ K.s2, -4 ≤ x ∧ x ≤ 5 := by
    rw [hs2]
    exact two_g_bound g hmemg
  have hl1 : (lift1 K.s1 P.q).length = P.n := by rw [lift1_length, hlen1]
  have hl2 : (lift2 K.s2 P.q).length = P.n := by
    rw [lift2_length, hs2, two_g_length, hleng]
  obtain ⟨hf1len, hf1lt⟩ := hfft (lift1 K.s1 P.q) hl1 (lift1_lt K.s1 P.q hq5 hs1b)
  obtain ⟨hf2len, hf2lt⟩ := hfft (lift2 K.s2 P.q) hl2 (lift2_lt K.s2 P.q hq5 hs2b)
  unfold derive_pub at hdp
  split at hdp
  · simp at hdp
  · rename_i hmem0
    simp only [Option.some.injEq] at hdp
    intro i hi
    have hi1 : i < (fft (lift1 K.s1 P.q)).length := by omega
    have hi2 : i < (fft (lift2 K.s2 P.q)).length := by omega
    have hiz : i < (List.zipWith (fun a b => b * invert a P.q % P.q)
        (fft (lift1 K.s1 P.q)) (fft (lift2 K.s2 P.q))).length := by
      rw [List.length_zipWith]
      omega
    have hA : A.getD i 0 = (fft (lift2 K.s2 P.q)).getD i 0
        * invert ((fft (lift1 K.s1 P.q)).getD i 0) P.q % P.q := by
      rw [← hdp, List.getD_eq_getElem _ 0 hiz, List.getElem_zipWith,
        List.getD_eq_getElem _ 0 hi1, List.getD_eq_getElem _ 0 hi2]
    have ha0 : 0 < (fft (lift1 K.s1 P.q)).getD i 0 := by
      rw [List.getD_eq_getElem _ 0 hi1]
      rcases Nat.eq_zero_or_pos ((fft (lift1 K.s1 P.q))[i]) with hz | hp
      · exact absurd (hz ▸ List.getElem_mem hi1) hmem0
      · exact hp
    have haq : (fft (lift1 K.s1 P.q)).getD i 0 < P.q := by
      rw [List.getD_eq_getElem _ 0 hi1]
      exact hf1lt _ (List.getElem_mem hi1)
    have hbq : (fft (lift2 K.s2 P.q)).getD i 0 < P.q := by
      rw [List.getD_eq_getElem _ 0 hi2]
      exact hf2lt _ (List.getElem_mem hi2)
    refine ⟨hA.symm, ?_⟩
    rw [hA]
    set a := (fft (lift1 K.s1 P.q)).getD i 0
    set b := (fft (lift2 K.s2 P.q)).getD i 0
    have hq1 : 1 < P.q := hprime.one_lt
    have hinv : a * invert a P.q % P.q = 1 := invert_mul_self a P.q hprime hq16 ha0 haq
    have hmod1 : (1 : Nat) % P.q = 1 := Nat.mod_eq_of_lt hq1
    have e1 : a * (b * invert a P.q % P.q) % P.q = a * (b * invert a P.q) % P.q :=
      Nat.ModEq.mul_left a (Nat.mod_modEq _ _)
    have e2 : a * (b * invert a P.q) = b * (a * invert a P.q) := by ring
    have e3 : b * (a * invert a P.q) % P.q = b * 1 % P.q := by
      apply Nat.ModEq.mul_left b
      show (a * invert a P.q) % P.q = 1 % P.q
      rw [hinv, hmod1]
    calc a * (b * invert a P.q % P.q) % P.q
        = a * (b * invert a P.q) % P.q := e1
      _ = b * (a * invert a P.q) % P.q := by rw [e2]
      _ = b * 1 % P.q := e3
      _ = b % P.q := by rw [Nat.mul_one]

/-- Witness for C1: the concrete generation over `q = 13` with `id` as the
    NTT; the produced `A = [10, 11]` satisfies both identities at `i = 0`. -/
theorem pubkey_fft_relation_witness :
    bliss_private_key_gen demoParamsKG id id demoStreams
        = (some (demoKeyKG, [10, 11]), 1) ∧
      (id (lift2 demoKeyKG.s2 demoParamsKG.q)).getD 0 0
          * invert ((id (lift1 demoKeyKG.s1 demoParamsKG.q)).getD 0 0) demoParamsKG.q
          % demoParamsKG.q
        = ([10, 11] : List Nat).getD 0 0 ∧
      (id (lift1 demoKeyKG.s1 demoParamsKG.q)).getD 0 0
          * ([10, 11] : List Nat).getD 0 0 % demoParamsKG.q
        = (id (lift2 demoKeyKG.s2 demoParamsKG.q)).getD 0 0 % demoParamsKG.q := by
  have hgen : bliss_private_key_gen demoParamsKG id id demoStreams
      = (some (demoKeyKG, [10, 11]), 1) := by decide
  have h := pubkey_fft_relation demoParamsKG id id demoStreams demoKeyKG [10, 11] 1
    (by norm_num : Nat.Prime 13) (by decide) (by decide) (by decide)
    (fun l h1 h2 => ⟨h1, h2⟩) hgen
  exact ⟨hgen, (h 0 (by decide)).1, (h 0 (by decide)).2⟩

